import Mathlib

/-!
# wordsrv.c: a multi-player word game server

A shallow embedding of `src/wordsrv.c`.  The server is a single-threaded select
loop; every readiness event (an accepted connection, input on a descriptor) is
one transition of the state below.

Conventions of the embedding.

* The two linked lists (`game.head`, the active players, and `new_players`) are
  Lean lists of `client` records, the `next` pointers being the list order.
* A `struct client *` is represented by the descriptor of the node it points
  to: the kernel hands out distinct descriptors to the open connections, so on
  live nodes pointer equality and equality of `fd` coincide.  `NULL` is `none`.
* Reading through a pointer whose node is no longer in a list (it was freed),
  walking off the end of a list, and storing outside `inbuf` are undefined
  behaviour in C; the functions concerned return `none` there.
* Everything the environment decides is an input: the bytes returned by
  `read`, the outcome of each `write`, the word drawn by the dictionary.
* `gameplay.h` is not part of the sources, so its constants are fields of
  `config`, and `init_game` / `status_message` are modelled from the spec.
-/

namespace Wordsrv

/-! ## Data model -/

/-- The constants of `gameplay.h`, which is not among the sources: the two
capacities `wordsrv.c` uses, and the budget and the placeholder that
`init_game` needs. -/
structure config where
  /-- capacity of `client.inbuf` -/
  MAX_BUF : Nat
  /-- capacity of `client.name` -/
  MAX_NAME : Nat
  /-- the guess budget a round starts with -/
  MAX_GUESSES : Int
  /-- the character `init_game` fills the masked word with -/
  placeholder : Char

/-- The `struct client` fields that `wordsrv.c` reads or writes (`next` is the
list order, `ipaddr` is only printed).  `name` is the C string held in the
name field; `inbuf` is the whole buffer, `in_ptr` the offset of the cursor. -/
structure client where
  fd : Int
  name : List Char
  inbuf : List Char
  in_ptr : Nat
  deriving DecidableEq

/-- The texts the server writes, by format string. -/
inductive message where
  /-- Text `WELCOME_MSG` -/
  | welcome
  /-- Text "It is not your turn to guess\r\n" -/
  | not_your_turn
  /-- Text "You can only guess one letter from a-z! Your Guess?\r\n" -/
  | invalid_guess
  /-- Text "%c is not in the word\r\n" -/
  | not_in_word (ch : Char)
  /-- Text "%s guess %c\r\n" -/
  | guess_echo (name : List Char) (ch : Char)
  /-- Text "The word was %s.\r\n" -/
  | word_was (word : List Char)
  /-- Text "Game over! You win!\r\n" -/
  | you_win
  /-- Text "Game over! %s win!\r\n" -/
  | winner (name : List Char)
  /-- Text "No guesses left. Game over.\r\n" -/
  | no_guesses
  /-- the text built by `status_message` from the game -/
  | status (guess : List Char) (letters_guessed : List Nat) (guesses_left : Int)
  /-- Text "It's %s's turn.\r\n" -/
  | turn (name : List Char)
  /-- Text "You Guess?\r\n" -/
  | you_guess
  /-- Text "%s has just joined\n" -/
  | joined (name : List Char)
  /-- Text "empty name, what's your name: " -/
  | empty_name
  /-- Text "%s already exists, enter another name: " -/
  | name_exists (name : List Char)
  deriving DecidableEq

/-- What the server does to the outside world, in order: a `write` on a
descriptor (attempted, whether or not it succeeds) or a call of `init_game`. -/
inductive event where
  | write (fd : Int) (m : message)
  | init_game
  deriving DecidableEq

/-- The `struct game_state` fields used by `wordsrv.c`: `word` and `guess` are
C strings, `letters_guessed` the 26 flags, `head` the list of active players,
`has_next_turn` the pointer to the player whose turn it is. -/
structure game_state where
  word : List Char
  guess : List Char
  letters_guessed : List Nat
  guesses_left : Int
  head : List client
  has_next_turn : Option Int
  deriving DecidableEq

/-- The state of `main`: the game, the list of clients that have not entered a
name yet, and the trace of what has been written so far. -/
structure server where
  game : game_state
  new_players : List client
  out : List event
  deriving DecidableEq

/-- What the environment decides during an event: `ok n` tells whether the
write attempted when the trace holds `n` events succeeds, `pick n` is the word
the dictionary returns to an `init_game` called at that point. -/
structure env where
  ok : Nat → Bool
  pick : Nat → List Char

/-! ## Linked-list operations -/

/-- Dereference a client pointer within a list: the node with that
descriptor, `none` if the list has no such node. -/
def deref (l : List client) (fd : Int) : Option client :=
  l.find? (fun c => c.fd = fd)

/-- Function `remove_player(top, fd)`: unlink (and free) the first node whose descriptor
is `fd`; the list is left alone when there is none. -/
def remove_player : List client → Int → List client
  | [], _ => []
  | c :: t, fd => if c.fd = fd then t else c :: remove_player t fd

/-- Value of `p->next` for the node `fd` of the list: `none` when the list has no such
node, `some none` for the last node, `some (some q)` otherwise. -/
def next_of : List client → Int → Option (Option Int)
  | [], _ => none
  | c :: t, fd => if c.fd = fd then some (t.head?.map (fun d => d.fd)) else next_of t fd

/-- Function `advance_turn(game)`.  An empty list returns at once, leaving
`has_next_turn` as it is; otherwise the turn goes to the head when nobody
holds it, and else to `has_next_turn->next`, wrapping to the head. -/
def advance_turn (g : game_state) : Option game_state :=
  match g.head with
  | [] => some g
  | h :: _ =>
    match g.has_next_turn with
    | none => some { g with has_next_turn := some h.fd }
    | some t =>
      match next_of g.head t with
      | none => none
      | some nx => some { g with has_next_turn := some (nx.getD h.fd) }

/-- Function `remove_active_player(game, p)` for a non-null `p`.  With an empty list it
returns at once.  The walk `while (curr != p)` runs off the list when `p` is
not in it.  When `p` is the first node (`prev == NULL`) both `head` and
`has_next_turn` are set to `NULL`; otherwise the turn is advanced if `p`
holds it and `p` is unlinked. -/
def remove_active_player (g : game_state) (p : Int) : Option game_state :=
  match g.head with
  | [] => some g
  | h :: _ =>
    if (deref g.head p).isNone then none
    else if h.fd = p then some { g with head := [], has_next_turn := none }
    else
      (if g.has_next_turn = some p then advance_turn g else some g).map
        (fun g1 => { g1 with head := remove_player g1.head p })

/-- Function `check_name(game, name)`: is there an active player with this name? -/
def check_name (g : game_state) (name : List Char) : Bool :=
  g.head.any (fun c => c.name = name)

/-! ## Messaging -/

/-- One `write(fd, msg, strlen(msg))`: the attempt is appended to the trace and
the result tells whether it succeeded (the call did not return -1). -/
def write (e : env) (s : server) (fd : Int) (m : message) : Bool × server :=
  (e.ok s.out.length, { s with out := s.out ++ [event.write fd m] })

/-- The loop of `broadcast`, `nodes` being the nodes still to visit.  After a
failed write the node is removed with `remove_player` (`has_next_turn` is not
touched) and the loop goes on with the saved `q = p->next`; when `q` is
`NULL` the loop reads `p->next` from the node just freed. -/
def broadcast_loop (e : env) (m : message) : List client → server → Option server
  | [], s => some s
  | p :: rest, s =>
    if (write e s p.fd m).1 then broadcast_loop e m rest (write e s p.fd m).2
    else
      match rest with
      | [] => none
      | _ :: _ =>
        broadcast_loop e m rest
          { (write e s p.fd m).2 with
            game := { s.game with head := remove_player s.game.head p.fd } }

/-- Function `broadcast(game, outbuf)`: write the message to every active player. -/
def broadcast (e : env) (s : server) (m : message) : Option server :=
  broadcast_loop e m s.game.head s

/-- The loop of `broadcast_without_inturn`: as `broadcast_loop`, but the node
`has_next_turn` points to is skipped. -/
def broadcast_without_inturn_loop (e : env) (m : message) :
    List client → server → Option server
  | [], s => some s
  | p :: rest, s =>
    if some p.fd = s.game.has_next_turn then broadcast_without_inturn_loop e m rest s
    else if (write e s p.fd m).1 then
      broadcast_without_inturn_loop e m rest (write e s p.fd m).2
    else
      match rest with
      | [] => none
      | _ :: _ =>
        broadcast_without_inturn_loop e m rest
          { (write e s p.fd m).2 with
            game := { s.game with head := remove_player s.game.head p.fd } }

/-- Function `broadcast_without_inturn(game, outbuf)`. -/
def broadcast_without_inturn (e : env) (s : server) (m : message) : Option server :=
  broadcast_without_inturn_loop e m s.game.head s

/-- Function `announce_turn(game)`: nothing when nobody holds the turn; otherwise the
holder's name is read through `has_next_turn` and announced to the others. -/
def announce_turn (e : env) (s : server) : Option server :=
  match s.game.has_next_turn with
  | none => some s
  | some t =>
    match deref s.game.head t with
    | none => none
    | some h => broadcast_without_inturn e s (message.turn h.name)

/-! ## Input buffer -/

/-- The C string that starts at offset `off` of a buffer: the bytes before the
first NUL. -/
def cstr (buf : List Char) (off : Nat) : List Char :=
  (buf.drop off).takeWhile (fun b => b ≠ Char.ofNat 0)

/-- Function `strstr(s, "\r\n")` on a C string: the offset of the first CR LF. -/
def strstr_crlf : List Char → Option Nat
  | [] => none
  | a :: t =>
    if a = Char.ofNat 13 ∧ t.head? = some (Char.ofNat 10) then some 0
    else (strstr_crlf t).map (fun k => k + 1)

/-- Store `data` into a buffer from offset `off` on. -/
def store (buf : List Char) (off : Nat) (data : List Char) : List Char :=
  buf.take off ++ data ++ buf.drop (off + data.length)

/-- Replace the first node of a list that has the descriptor of `p` by `p`: the
effect of assigning to fields through the pointer to that node. -/
def set_client : List client → client → List client
  | [], _ => []
  | c :: t, p => if c.fd = p.fd then p :: t else c :: set_client t p

/-- How the read-and-frame step of `main` leaves the session. -/
inductive read_result where
  /-- Case `bytes_read <= 0` -/
  | closed
  /-- no CR LF in what was read: the cursor has moved past it -/
  | pending (p : client)
  /-- CR LF found at offset `lf_pos` of `inbuf`; the cursor is still where it was -/
  | line (p : client) (lf_pos : Nat)

/-- Lines 187-201 (and the same code at 328-343).  `data` is what `read`
returns, at most `bytes_to_read` bytes of it being taken; the terminating NUL
goes to `in_ptr[bytes_read]`, which is outside the buffer when the read
filled it; `strstr` searches from `in_ptr`. -/
def read_input (c : config) (p : client) (data : List Char) : Option read_result :=
  if data.take (c.MAX_BUF - p.in_ptr) = [] then some read_result.closed
  else if c.MAX_BUF ≤ p.in_ptr + (data.take (c.MAX_BUF - p.in_ptr)).length then none
  else
    match strstr_crlf (cstr (store p.inbuf p.in_ptr
        (data.take (c.MAX_BUF - p.in_ptr) ++ [Char.ofNat 0])) p.in_ptr) with
    | none =>
      some (read_result.pending
        { p with
          inbuf := store p.inbuf p.in_ptr (data.take (c.MAX_BUF - p.in_ptr) ++ [Char.ofNat 0])
          in_ptr := p.in_ptr + (data.take (c.MAX_BUF - p.in_ptr)).length })
    | some k =>
      some (read_result.line
        { p with
          inbuf := store p.inbuf p.in_ptr (data.take (c.MAX_BUF - p.in_ptr) ++ [Char.ofNat 0]) }
        (p.in_ptr + k))

/-- Line 195, `p->in_ptr[bytes_read] = 0`: the index of `inbuf` at which the
terminating NUL is stored after a read that returns `data`. -/
def nul_index (c : config) (p : client) (data : List Char) : Nat :=
  p.in_ptr + (data.take (c.MAX_BUF - p.in_ptr)).length

/-! ## The game -/

/-- Modelled from the spec: `init_game` of gameplay.c, which is not among the
sources.  A round reset asks the dictionary for a new target word and
reinitialises the masked progress, the guessed letters and the guess budget;
it preserves the roster and the turn reference. -/
def init_game (c : config) (e : env) (s : server) : server :=
  { s with
    game :=
      { s.game with
        word := e.pick s.out.length
        guess := List.replicate (e.pick s.out.length).length c.placeholder
        letters_guessed := List.replicate 26 0
        guesses_left := c.MAX_GUESSES }
    out := s.out ++ [event.init_game] }

/-- Modelled from the spec: `status_message` of gameplay.c, which is not
among the sources.  The status line summarises masked progress, letters
guessed and guesses remaining. -/
def status_message (g : game_state) : message :=
  message.status g.guess g.letters_guessed g.guesses_left

/-- Lines 230-234: the first index at which `word` holds `ch`, `strlen(word)`
when it holds it nowhere. -/
def first_index (ch : Char) : List Char → Nat
  | [] => 0
  | w :: ws => if w = ch then 0 else first_index ch ws + 1

/-- The body of the loop of lines 249-253 over the rest of the word:
`guess[i] = ch` wherever `word[i] == ch`. -/
def reveal_loop (ch : Char) : List Char → List Char → List Char
  | w :: ws, g :: gs => (if w = ch then ch else g) :: reveal_loop ch ws gs
  | _, gs => gs

/-- Lines 249-253: the loop runs from the index `i` found by the search. -/
def reveal (word guess : List Char) (ch : Char) (i : Nat) : List Char :=
  guess.take i ++ reveal_loop ch (word.drop i) (guess.drop i)

/-- The statement `if (write(p->fd, msg, ...) == -1) remove_active_player(&game, p);`
for a pointer `p` to an active player: `p->fd` is read through `p`. -/
def write_or_remove (e : env) (s : server) (p : Int) (m : message) : Option server :=
  match deref s.game.head p with
  | none => none
  | some _ =>
    if (write e s p m).1 then some (write e s p m).2
    else (remove_active_player s.game p).map (fun g => { (write e s p m).2 with game := g })

/-- Lines 229-256: the guess `ch` of player `p` is applied to the game.  The
result carries the flag `guess_failed`. -/
def apply_guess (e : env) (s : server) (p : Int) (ch : Char) : Option (server × Bool) :=
  if first_index ch s.game.word = s.game.word.length then
    (write_or_remove e s p (message.not_in_word ch)).map (fun s1 =>
      ({ s1 with
         game :=
           { s1.game with
             guesses_left := s1.game.guesses_left - 1
             letters_guessed := s1.game.letters_guessed.set (ch.toNat - 97) 1 } }, true))
  else
    some
      ({ s with
         game :=
           { s.game with
             guess := reveal s.game.word s.game.guess ch (first_index ch s.game.word)
             letters_guessed := s.game.letters_guessed.set (ch.toNat - 97) 1 } }, false)

/-- Lines 265-285: the end conditions.  The result carries the flag
`game_over`. -/
def end_of_round (e : env) (s : server) (p : Int) : Option (server × Bool) :=
  if s.game.word = s.game.guess then
    (write_or_remove e s p (message.word_was s.game.word)).bind (fun s1 =>
      (write_or_remove e s1 p message.you_win).bind (fun s2 =>
        (deref s2.game.head p).bind (fun pc =>
          (broadcast_without_inturn e s2 (message.winner pc.name)).map
            (fun s3 => (s3, true)))))
  else if s.game.guesses_left = 0 then
    (broadcast e s message.no_guesses).map (fun s1 => (s1, true))
  else some (s, false)

/-- Lines 257-297: the guess is echoed to the guesser, the end conditions are
evaluated, a finished round is reset, the status line is broadcast, and the
turn is advanced if the guess failed or the round ended. -/
def finish_guess (c : config) (e : env) (s : server) (p : Int) (ch : Char)
    (guess_failed : Bool) : Option server :=
  (deref s.game.head p).bind (fun pc =>
    (write_or_remove e s p (message.guess_echo pc.name ch)).bind (fun s1 =>
      (end_of_round e s1 p).bind (fun r =>
        (broadcast e (if r.2 then init_game c e r.1 else r.1)
            (status_message (if r.2 then init_game c e r.1 else r.1).game)).bind (fun s2 =>
          if guess_failed || r.2 then
            (advance_turn s2.game).map (fun g => { s2 with game := g })
          else some s2))))

/-- Lines 229-297: a valid guess of the turn holder. -/
def handle_guess (c : config) (e : env) (s : server) (p : Int) (ch : Char) :
    Option server :=
  (apply_guess e s p ch).bind (fun r => finish_guess c e r.1 p ch r.2)

/-- Line 216: `strlen(p->inbuf) == 3` and `p->inbuf[0]` between 'a' and 'z'. -/
def is_valid (inbuf : List Char) : Bool :=
  (cstr inbuf 0).length = 3 ∧ 97 ≤ (inbuf.headD (Char.ofNat 0)).toNat ∧
    (inbuf.headD (Char.ofNat 0)).toNat ≤ 122

/-- Lines 186-299: input is ready on the descriptor of the active player `p`. -/
def active_input (c : config) (e : env) (s : server) (p : client) (data : List Char) :
    Option server :=
  match read_input c p data with
  | none => none
  | some read_result.closed =>
    (remove_active_player s.game p.fd).map (fun g => { s with game := g })
  | some (read_result.pending p1) =>
    some { s with game := { s.game with head := set_client s.game.head p1 } }
  | some (read_result.line p1 _) =>
    if s.game.has_next_turn ≠ some p.fd then
      write_or_remove e
        { s with game := { s.game with head := set_client s.game.head { p1 with in_ptr := 0 } } }
        p.fd message.not_your_turn
    else if is_valid p1.inbuf then
      handle_guess c e
        { s with game := { s.game with head := set_client s.game.head { p1 with in_ptr := 0 } } }
        p.fd (p1.inbuf.headD (Char.ofNat 0))
    else
      write_or_remove e
        { s with game := { s.game with head := set_client s.game.head { p1 with in_ptr := 0 } } }
        p.fd message.invalid_guess

/-- Lines 306-313 (and 422-428): the turn holder, if there is one, is sent the
prompt; when that write fails it is `p`, the client whose input was handled,
that is removed. -/
def prompt_turn (e : env) (s : server) (p : Int) : Option server :=
  match s.game.has_next_turn with
  | none => some s
  | some t =>
    match deref s.game.head t with
    | none => none
    | some _ =>
      if (write e s t message.you_guess).1 then some (write e s t message.you_guess).2
      else
        (remove_active_player s.game p).map
          (fun g => { (write e s t message.you_guess).2 with game := g })

/-- Lines 304-316: after input of an active player the turn is announced and
the holder prompted. -/
def after_active (e : env) (s : server) (p : Int) : Option server :=
  (announce_turn e s).bind (fun s1 => prompt_turn e s1 p)

/-! ## Registration -/

/-- Lines 347-355: the name taken from a framed line.  With the CR at offset
`lf_pos`, `bytes_to_copy` is `lf_pos + 1`; a line that fits is cut at the CR
and copied with `strcpy`, a longer one is copied with `strncpy` up to
`MAX_NAME - 1` bytes. -/
def store_name (c : config) (p : client) (lf_pos : Nat) : client :=
  if lf_pos + 1 ≤ c.MAX_NAME then
    { p with
      inbuf := p.inbuf.set lf_pos (Char.ofNat 0)
      name := cstr (p.inbuf.set lf_pos (Char.ofNat 0)) 0 }
  else { p with name := (cstr p.inbuf 0).take (c.MAX_NAME - 1) }

/-- Lines 357-377: a rejected name.  The reply is written; if that fails the
session is removed from `new_players`, otherwise its cursor is reset. -/
def reject_name (e : env) (s : server) (p : client) (m : message) : server :=
  if (write e s p.fd m).1 then
    { (write e s p.fd m).2 with new_players := set_client s.new_players { p with in_ptr := 0 } }
  else
    { (write e s p.fd m).2 with
      new_players := remove_player s.new_players p.fd }

/-- Lines 383-435: `p` is unlinked from `new_players` and put at the head of
the active players; the join is broadcast, the first turn is seated if
nobody holds it, `p` is sent the status line, the turn holder is prompted and
the turn announced. -/
def promote (e : env) (s : server) (p : client) : Option server :=
  (broadcast e
      { s with
        new_players := remove_player s.new_players p.fd
        game := { s.game with head := { p with in_ptr := 0 } :: s.game.head } }
      (message.joined p.name)).bind (fun s1 =>
    (if s1.game.has_next_turn = none then
        (advance_turn s1.game).map (fun g => { s1 with game := g })
      else some s1).bind (fun s2 =>
      (write_or_remove e s2 p.fd (status_message s2.game)).bind (fun s3 =>
        (prompt_turn e s3 p.fd).bind (fun s4 => announce_turn e s4))))

/-- Lines 326-435: input is ready on the descriptor of `p`, a client that has
not entered an acceptable name yet. -/
def lobby_input (c : config) (e : env) (s : server) (p : client) (data : List Char) :
    Option server :=
  match read_input c p data with
  | none => none
  | some read_result.closed =>
    some { s with new_players := remove_player s.new_players p.fd }
  | some (read_result.pending p1) =>
    some { s with new_players := set_client s.new_players p1 }
  | some (read_result.line p1 lf_pos) =>
    if (store_name c p1 lf_pos).name = [] then
      some (reject_name e s (store_name c p1 lf_pos) message.empty_name)
    else if check_name s.game (store_name c p1 lf_pos).name then
      some (reject_name e s (store_name c p1 lf_pos)
        (message.name_exists (store_name c p1 lf_pos).name))
    else promote e s (store_name c p1 lf_pos)

/-! ## The dispatcher -/

/-- Lines 178-437, one ready descriptor `cur_fd` on which `read` returns
`data`: the active players are searched first, then the new players; a
descriptor found in neither list is ignored. -/
def handle_input (c : config) (e : env) (s : server) (cur_fd : Int) (data : List Char) :
    Option server :=
  match deref s.game.head cur_fd with
  | some p => (active_input c e s p data).bind (fun s1 => after_active e s1 cur_fd)
  | none =>
    match deref s.new_players cur_fd with
    | some p => lobby_input c e s p data
    | none => some s

/-- Function `add_player(top, fd, addr)`: a fresh node at the head of the list, with an
empty name, the cursor at the start of the buffer and `inbuf[0] = 0`; `junk`
is what `malloc` left in the rest of the buffer. -/
def add_player (top : List client) (fd : Int) (junk : List Char) : List client :=
  { fd := fd, name := [], inbuf := Char.ofNat 0 :: junk, in_ptr := 0 } :: top

/-- Lines 151-166: a connection is accepted on descriptor `clientfd`, the
session is added to `new_players` and the welcome is written.  When that
write fails the code calls `remove_player(&(game.head), p->fd)`, `p` being
the loop variable of `main` as the earlier iterations left it (`NULL` after
a loop that ran to its end, a node otherwise): it is read through, and the
node removed is the active player with that descriptor, if there is one. -/
def accept_client (e : env) (s : server) (clientfd : Int) (junk : List Char)
    (p : Option Int) : Option server :=
  if (write e { s with new_players := add_player s.new_players clientfd junk } clientfd
      message.welcome).1 then
    some (write e { s with new_players := add_player s.new_players clientfd junk } clientfd
      message.welcome).2
  else
    match p with
    | none => none
    | some q =>
      if (deref s.game.head q).isSome || (deref s.new_players q).isSome then
        some
          { (write e { s with new_players := add_player s.new_players clientfd junk } clientfd
              message.welcome).2 with
            game := { s.game with head := remove_player s.game.head q } }
      else none

/-! ## Notions used in the statements -/

/-- One readiness event: a connection is accepted, or input is ready on a
descriptor; the event is handled without undefined behaviour. -/
inductive step (c : config) (s s1 : server) : Prop where
  | accept (e : env) (clientfd : Int) (junk : List Char) (p : Option Int)
      (h : accept_client e s clientfd junk p = some s1)
  | input (e : env) (cur_fd : Int) (data : List Char)
      (h : handle_input c e s cur_fd data = some s1)

/-- The state `s1` is reached from `s` by a sequence of events. -/
def runs (c : config) (s s1 : server) : Prop := Relation.ReflTransGen (step c) s s1

/-- The number of calls of `init_game` recorded in the trace. -/
def resets (s : server) : Nat := s.out.count event.init_game

/-- The state `s1` is reached from `s` by a sequence of events of the
dispatcher (a connection accepted, input handled on any descriptor: a guess
with the line stored before it and the announcement and prompt after it, a
rejected line, a name, a disconnection), none of which calls `init_game`:
the round played in `s` does not end. -/
inductive round_runs (c : config) : server → server → Prop where
  | start (s : server) : round_runs c s s
  | next {s s1 s2 : server} (before : round_runs c s s1) (handled : step c s1 s2)
      (no_reset : resets s2 = resets s1) : round_runs c s s2

/-- The result of `k` successive calls of `advance_turn`: the turn reference after
each call, in order, and the game after the last one. -/
def advance_turns : Nat → game_state → Option (List (Option Int) × game_state)
  | 0, g => some ([], g)
  | k + 1, g =>
    (advance_turn g).bind (fun g1 =>
      (advance_turns k g1).map (fun r => (g1.has_next_turn :: r.1, r.2)))

/-- The part of the game that belongs to the round is the same in both states. -/
def same_round (g g1 : game_state) : Prop :=
  g1.word = g.word ∧ g1.guess = g.guess ∧ g1.letters_guessed = g.letters_guessed ∧
    g1.guesses_left = g.guesses_left

/-- The turn reference is `NULL` or points to an active player. -/
def turn_live (g : game_state) : Prop :=
  g.has_next_turn.all (fun t => (deref g.head t).isSome) = true

instance (g : game_state) : Decidable (turn_live g) :=
  inferInstanceAs (Decidable (_ = true))

/-- The turn reference is `none` exactly when there is no active player, and
otherwise points to an active player. -/
def turn_ok (g : game_state) : Prop :=
  (g.has_next_turn = none ↔ g.head = []) ∧ turn_live g

instance (g : game_state) : Decidable (turn_ok g) :=
  inferInstanceAs (Decidable (_ ∧ _))

/-- The descriptors of a list of clients, in list order. -/
def fds (l : List client) : List Int := l.map (fun c => c.fd)

/-- The display names of a list of clients, in list order. -/
def names (l : List client) : List (List Char) := l.map (fun c => c.name)

/-- The member that follows `fd` in the cyclic order of the list: with `fd` at
position `i` of `n` members, the member at position `(i + 1) mod n`. -/
def successor (l : List client) (fd : Int) : Option Int :=
  (fds l)[((fds l).indexOf fd + 1) % (fds l).length]?

/-- The members of a list other than `p`, in list order. -/
def others (l : List client) (p : Int) : List client :=
  l.filter (fun q => decide (q.fd ≠ p))

/-- The letter `ch` is in the guessed-letter set: it is one of a-z and
`letters_guessed[ch - 'a']` is 1. -/
def guessed (g : game_state) (ch : Char) : Bool :=
  decide (97 ≤ ch.toNat ∧ ch.toNat ≤ 122 ∧ g.letters_guessed[ch.toNat - 97]? = some 1)

/-- The masked progress is the word with every letter that is not in the
guessed-letter set replaced by `ph`. -/
def masked_ok (ph : Char) (g : game_state) : Prop :=
  g.guess.length = g.word.length ∧ g.letters_guessed.length = 26 ∧
    ∀ (i : Nat) (w : Char), g.word[i]? = some w →
      g.guess[i]? = some (if guessed g w = true then w else ph)

/-- Only the trace differs between the two states. -/
def only_out (s s1 : server) : Prop :=
  s1.game = s.game ∧ s1.new_players = s.new_players

/-- The round and the new players are the same, and the active players of the
second state are active players of the first, in the same order. -/
def roster_shrinks (s s1 : server) : Prop :=
  same_round s.game s1.game ∧ s1.new_players = s.new_players ∧
    s1.game.head.Sublist s.game.head

/-- Round, turn reference and membership of both lists are the same in the two
states. -/
def unchanged (s s1 : server) : Prop :=
  same_round s.game s1.game ∧ s1.game.has_next_turn = s.game.has_next_turn ∧
    fds s1.game.head = fds s.game.head ∧ fds s1.new_players = fds s.new_players

/-- The state in which a framed line of the active player `p` is interpreted:
the bytes read are in the buffer, NUL-terminated, and the cursor is back at
the start (lines 195 and 204). -/
def line_taken (s : server) (p : client) (data : List Char) : server :=
  { s with
    game :=
      { s.game with
        head := set_client s.game.head
          { p with
            inbuf := store p.inbuf p.in_ptr (data ++ [Char.ofNat 0])
            in_ptr := 0 } } }

/-- The line completed by `data` on descriptor `cur_fd` is rejected: a guess of
an active player who does not hold the turn, a malformed guess, an empty
name, or a name that an active player has. -/
def rejected (c : config) (s : server) (cur_fd : Int) (data : List Char) : Prop :=
  (∃ p p1 k, deref s.game.head cur_fd = some p ∧
      read_input c p data = some (read_result.line p1 k) ∧
      (s.game.has_next_turn ≠ some cur_fd ∨ is_valid p1.inbuf = false)) ∨
  (∃ p p1 k, deref s.game.head cur_fd = none ∧ deref s.new_players cur_fd = some p ∧
      read_input c p data = some (read_result.line p1 k) ∧
      ((store_name c p1 k).name = [] ∨ check_name s.game (store_name c p1 k).name = true))

/-! ## Sample states -/

/-- Buffers of 8 bytes, names of 5, a budget of 5 guesses, '_' for a hidden letter. -/
def small_config : config :=
  { MAX_BUF := 8, MAX_NAME := 5, MAX_GUESSES := 5, placeholder := '_' }

/-- A buffer of eight NUL bytes. -/
def blank : List Char := List.replicate 8 (Char.ofNat 0)

/-- The line "a" with its terminator. -/
def line_a : List Char := ['a', Char.ofNat 13, Char.ofNat 10]

/-- The line "bob" with its terminator. -/
def line_bob : List Char := ['b', 'o', 'b', Char.ofNat 13, Char.ofNat 10]

/-- An active player on descriptor 4. -/
def ann : client := { fd := 4, name := ['a', 'n', 'n'], inbuf := blank, in_ptr := 0 }

/-- An active player on descriptor 5. -/
def bob : client := { fd := 5, name := ['b', 'o', 'b'], inbuf := blank, in_ptr := 0 }

/-- An active player on descriptor 6. -/
def cyd : client := { fd := 6, name := ['c', 'y', 'd'], inbuf := blank, in_ptr := 0 }

/-- A new player on descriptor 7. -/
def dan : client := { fd := 7, name := [], inbuf := blank, in_ptr := 0 }

/-- The session `ann` once "a\r\n" has been read into its buffer. -/
def ann_line : client :=
  { ann with inbuf := store ann.inbuf ann.in_ptr (line_a ++ [Char.ofNat 0]) }

/-- The session `dan` once "bob\r\n" has been read into its buffer. -/
def dan_line : client :=
  { dan with inbuf := store dan.inbuf dan.in_ptr (line_bob ++ [Char.ofNat 0]) }

/-- The round "cat" with nothing guessed, three players, `ann` to guess. -/
def cat_game : game_state :=
  { word := ['c', 'a', 't'], guess := ['_', '_', '_'], letters_guessed := List.replicate 26 0,
    guesses_left := 5, head := [ann, bob, cyd], has_next_turn := some 4 }

/-- The state with the game `cat_game`, no new player and an empty trace. -/
def cat_server : server := { game := cat_game, new_players := [], out := [] }

/-- The state `cat_server` with the turn at `cyd`. -/
def cat_server_cyd : server :=
  { cat_server with game := { cat_game with has_next_turn := some cyd.fd } }

/-- The round "cat" with 'c' and 'a' guessed, `ann` to guess. -/
def cat_server_ca : server :=
  { cat_server with
    game :=
      { cat_game with
        guess := ['c', 'a', '_']
        letters_guessed := ((List.replicate 26 0).set 2 1).set 0 1 } }

/-- The state `cat_server_ca` once the guess 't' is applied. -/
def cat_server_cat : server × Bool :=
  ({ cat_server_ca with
     game :=
       { cat_server_ca.game with
         guess := ['c', 'a', 't']
         letters_guessed := cat_server_ca.game.letters_guessed.set 19 1 } }, false)

/-- The state `cat_server` once the guess 'x' of `ann` is applied. -/
def cat_server_x : server × Bool :=
  ({ cat_server with
     game :=
       { cat_game with
         guesses_left := 4
         letters_guessed := cat_game.letters_guessed.set 23 1 }
     out := [event.write 4 (message.not_in_word 'x')] }, true)

/-- The state `cat_server` once `ann` has sent "a\r\n" and it has been handled,
every write succeeding. -/
def cat_server_a : server :=
  { game :=
      { cat_game with
        guess := ['_', 'a', '_']
        letters_guessed := cat_game.letters_guessed.set 0 1
        head := [ann_line, bob, cyd] }
    new_players := []
    out :=
      [event.write 4 (message.guess_echo ann.name 'a'),
       event.write 4 (message.status ['_', 'a', '_'] (cat_game.letters_guessed.set 0 1) 5),
       event.write 5 (message.status ['_', 'a', '_'] (cat_game.letters_guessed.set 0 1) 5),
       event.write 6 (message.status ['_', 'a', '_'] (cat_game.letters_guessed.set 0 1) 5),
       event.write 5 (message.turn ann.name),
       event.write 6 (message.turn ann.name),
       event.write 4 message.you_guess] }

/-- The state `cat_server` with `dan` waiting to enter a name. -/
def lobby_server : server := { cat_server with new_players := [dan] }

/-- Nobody is connected; the round is "cat". -/
def empty_server : server :=
  { game := { cat_game with head := [], has_next_turn := none }, new_players := [], out := [] }

/-- The state `empty_server` once a connection on descriptor 7 is accepted. -/
def one_waiting : server :=
  { empty_server with
    new_players := [{ fd := 7, name := [], inbuf := blank, in_ptr := 0 }]
    out := [event.write 7 message.welcome] }

/-- Every write succeeds; the dictionary returns "dog". -/
def all_ok : env := { ok := fun _ => true, pick := fun _ => ['d', 'o', 'g'] }

/-- The write attempted first fails, all later ones succeed. -/
def first_fails : env := { ok := fun n => decide (n ≠ 0), pick := fun _ => ['d', 'o', 'g'] }

/-- The write attempted second fails, all other ones succeed. -/
def second_fails : env := { ok := fun n => decide (n ≠ 1), pick := fun _ => ['d', 'o', 'g'] }

/-- No active player, and a turn reference that is not `NULL`. -/
def stale_turn_game : game_state := { cat_game with head := [], has_next_turn := some 4 }

/-- The session `ann` once "a" and a CR have been read into its buffer. -/
def ann_cr : client :=
  { ann with
    inbuf := store ann.inbuf ann.in_ptr (['a', Char.ofNat 13] ++ [Char.ofNat 0])
    in_ptr := 2 }

/-- The session `ann_cr` once a LF has been read into its buffer. -/
def ann_cr_lf : client :=
  { ann_cr with
    inbuf := store ann_cr.inbuf ann_cr.in_ptr ([Char.ofNat 10] ++ [Char.ofNat 0])
    in_ptr := 3 }

/-- The write attempted third fails, all other ones succeed. -/
def third_fails : env := { ok := fun n => decide (n ≠ 2), pick := fun _ => ['d', 'o', 'g'] }

/-- The line "dan" with its terminator. -/
def line_dan : List Char := ['d', 'a', 'n', Char.ofNat 13, Char.ofNat 10]

/-- The session `dan` once "dan\r\n" has been read into its buffer. -/
def dan_named : client :=
  { dan with inbuf := store dan.inbuf dan.in_ptr (line_dan ++ [Char.ofNat 0]) }

/-- The line "x" with its terminator. -/
def line_x : List Char := ['x', Char.ofNat 13, Char.ofNat 10]

/-- The session `ann_line` once "x\r\n" has been read into its buffer. -/
def ann_line_x : client :=
  { ann with inbuf := store ann_line.inbuf ann_line.in_ptr (line_x ++ [Char.ofNat 0]) }

/-- The state `cat_server_a` once `ann` has sent "x\r\n" and it has been
handled, every write succeeding: a miss, and the turn passes to `bob`. -/
def cat_server_ax : server :=
  { game :=
      { cat_server_a.game with
        letters_guessed := cat_server_a.game.letters_guessed.set 23 1
        guesses_left := 4
        head := [ann_line_x, bob, cyd]
        has_next_turn := some bob.fd }
    new_players := []
    out :=
      cat_server_a.out ++
      [event.write 4 (message.not_in_word 'x'),
       event.write 4 (message.guess_echo ann.name 'x'),
       event.write 4
         (message.status ['_', 'a', '_'] (cat_server_a.game.letters_guessed.set 23 1) 4),
       event.write 5
         (message.status ['_', 'a', '_'] (cat_server_a.game.letters_guessed.set 23 1) 4),
       event.write 6
         (message.status ['_', 'a', '_'] (cat_server_a.game.letters_guessed.set 23 1) 4),
       event.write 4 (message.turn bob.name),
       event.write 6 (message.turn bob.name),
       event.write 5 message.you_guess] }

/-- The line "t" with its terminator. -/
def line_t : List Char := ['t', Char.ofNat 13, Char.ofNat 10]

/-- The session `ann` once "t\r\n" has been read into its buffer. -/
def ann_line_t : client :=
  { ann with inbuf := store ann.inbuf ann.in_ptr (line_t ++ [Char.ofNat 0]) }

/-- The write attempted fifth fails, all other ones succeed. -/
def fifth_fails : env := { ok := fun n => decide (n ≠ 4), pick := fun _ => ['d', 'o', 'g'] }

/-- The round "cat" with no letter guessed and one guess left, `ann` to guess. -/
def cat_server_last : server :=
  { cat_server with game := { cat_game with guesses_left := 1 } }

/-- The state `lobby_server` once a connection on descriptor 8 has been
accepted while the loop variable `p` of `main` pointed to `ann`, the welcome
write failing (line 164): `ann`, who holds the turn, is no longer an active
player and `has_next_turn` still points to the freed node. -/
def stale_lobby_server : server :=
  { game := { cat_game with head := [bob, cyd] }
    new_players := [{ fd := 8, name := [], inbuf := blank, in_ptr := 0 }, dan]
    out := [event.write 8 message.welcome] }

/-- Three bytes of which the second is a NUL. -/
def line_nul : List Char := ['b', Char.ofNat 0, 'b']

/-- The session `dan` once `line_nul` and CR LF have been read into its buffer. -/
def dan_nul : client :=
  { dan with
    inbuf := store dan.inbuf dan.in_ptr
      (line_nul ++ [Char.ofNat 13, Char.ofNat 10] ++ [Char.ofNat 0])
    in_ptr := 5 }

/-- A line of six characters: with its terminator it fills the 8 bytes of the
buffer. -/
def line_six : List Char := ['a', 'b', 'c', 'd', 'e', 'f']

/-! ## Frame lemmas: what the list operations leave alone -/

theorem same_round_refl (g : game_state) : same_round g g := ⟨rfl, rfl, rfl, rfl⟩

theorem same_round_trans {a b c : game_state} (h1 : same_round a b) (h2 : same_round b c) :
    same_round a c :=
  ⟨h2.1.trans h1.1, h2.2.1.trans h1.2.1, h2.2.2.1.trans h1.2.2.1, h2.2.2.2.trans h1.2.2.2⟩

theorem advance_turn_frame {g g1 : game_state} (h : advance_turn g = some g1) :
    same_round g g1 ∧ g1.head = g.head := by
  unfold advance_turn at h
  split at h
  · cases h; exact ⟨same_round_refl _, rfl⟩
  · split at h
    · cases h; exact ⟨same_round_refl _, rfl⟩
    · split at h
      · cases h
      · cases h; exact ⟨same_round_refl _, rfl⟩

theorem remove_active_player_round {g g1 : game_state} {p : Int}
    (h : remove_active_player g p = some g1) : same_round g g1 := by
  unfold remove_active_player at h
  split at h
  · cases h; exact same_round_refl _
  · split at h
    · cases h
    · split at h
      · cases h; exact same_round_refl _
      · split at h
        · cases hq : advance_turn g with
          | none => simp [hq] at h
          | some g2 =>
            simp [hq] at h
            cases h
            exact (advance_turn_frame hq).1
        · simp at h
          cases h; exact same_round_refl _

theorem next_of_isSome {l : List client} {p : Int} (h : (deref l p).isSome) :
    (next_of l p).isSome := by
  induction l with
  | nil => simp [deref] at h
  | cons c t ih =>
    unfold next_of
    by_cases hc : c.fd = p
    · simp [hc]
    · simp only [hc, if_false]
      apply ih
      simpa [deref, List.find?, hc] using h

/-- Removing a player that is in the list is defined. -/
theorem remove_active_player_isSome {g : game_state} {p : Int}
    (h : (deref g.head p).isSome) : (remove_active_player g p).isSome := by
  have h1 : (deref g.head p).isNone = false := by
    cases hx : deref g.head p <;> simp_all
  have h2 := next_of_isSome h
  cases hh : g.head with
  | nil => simp [remove_active_player, hh]
  | cons hd tl =>
    rw [hh] at h1 h2
    by_cases hc : hd.fd = p
    · simp [remove_active_player, hh, h1, hc]
    · by_cases ht : g.has_next_turn = some p
      · cases hn : next_of (hd :: tl) p with
        | none => simp [hn] at h2
        | some nx => simp [remove_active_player, hh, h1, hc, ht, advance_turn, hn]
      · simp [remove_active_player, hh, h1, hc, ht]

theorem write_or_remove_isSome {e : env} {s : server} {p : Int} {m : message}
    (h : (deref s.game.head p).isSome) : (write_or_remove e s p m).isSome := by
  unfold write_or_remove
  cases hd : deref s.game.head p with
  | none => simp [hd] at h
  | some c =>
    simp only
    split
    · rfl
    · have := remove_active_player_isSome h
      cases hr : remove_active_player s.game p with
      | none => simp [hr] at this
      | some g => simp

theorem write_or_remove_round {e : env} {s s1 : server} {p : Int} {m : message}
    (h : write_or_remove e s p m = some s1) :
    same_round s.game s1.game ∧ s1.new_players = s.new_players ∧
      s1.out = s.out ++ [event.write p m] := by
  unfold write_or_remove at h
  split at h
  · cases h
  · split at h
    · cases h; exact ⟨same_round_refl _, rfl, rfl⟩
    · cases hr : remove_active_player s.game p with
      | none => simp [hr] at h
      | some g =>
        simp [hr] at h
        cases h
        exact ⟨remove_active_player_round hr, rfl, rfl⟩

theorem first_index_le (ch : Char) (w : List Char) : first_index ch w ≤ w.length := by
  induction w with
  | nil => simp [first_index]
  | cons a t ih => unfold first_index; split <;> simp; exact ih

theorem first_index_eq_length (ch : Char) (w : List Char) :
    first_index ch w = w.length ↔ ch ∉ w := by
  induction w with
  | nil => simp [first_index]
  | cons a t ih =>
    unfold first_index
    by_cases h : a = ch
    · simp [h]
    · have h2 : ¬ ch = a := fun h3 => h h3.symm
      simp [h, h2, ih]

theorem reveal_loop_length (ch : Char) (w g : List Char) :
    (reveal_loop ch w g).length = g.length := by
  induction w generalizing g with
  | nil => simp [reveal_loop]
  | cons a t ih =>
    cases g with
    | nil => simp [reveal_loop]
    | cons b u => simp [reveal_loop, ih]

theorem reveal_loop_getElem? (ch : Char) (w g : List Char) (i : Nat) (h : i < w.length) :
    (reveal_loop ch w g)[i]? = if w[i]? = some ch then (g[i]?).map (fun _ => ch) else g[i]? := by
  induction w generalizing g i with
  | nil => simp at h
  | cons a t ih =>
    cases g with
    | nil => simp [reveal_loop]
    | cons b u =>
      cases i with
      | zero => by_cases hc : a = ch <;> simp [reveal_loop, hc]
      | succ j =>
        have hj : j < t.length := by simpa using h
        simp [reveal_loop, ih u j hj]

theorem first_index_not_before (ch : Char) (w : List Char) (i : Nat)
    (h : i < first_index ch w) : w[i]? ≠ some ch := by
  induction w generalizing i with
  | nil => simp
  | cons a t ih =>
    unfold first_index at h
    by_cases hc : a = ch
    · simp [hc] at h
    · simp only [hc, if_false] at h
      cases i with
      | zero => simpa using hc
      | succ j => simpa using ih j (by omega)

theorem reveal_getElem? (ch : Char) (w g : List Char) (hlen : g.length = w.length)
    (i : Nat) (h : i < w.length) :
    (reveal w g ch (first_index ch w))[i]? = if w[i]? = some ch then some ch else g[i]? := by
  unfold reveal
  have hle := first_index_le ch w
  by_cases hi : i < first_index ch w
  · have := first_index_not_before ch w i hi
    rw [List.getElem?_append_left (by simp; omega)]
    simp [this, List.getElem?_take, hi]
  · have hi2 : first_index ch w ≤ i := by omega
    rw [List.getElem?_append_right (by simp; omega)]
    have hl : (List.take (first_index ch w) g).length = first_index ch w := by simp; omega
    rw [hl, reveal_loop_getElem? _ _ _ _ (by simp; omega)]
    have e1 : first_index ch w + (i - first_index ch w) = i := by omega
    have hg : i < g.length := by omega
    simp [List.getElem?_drop, e1, List.getElem?_eq_getElem hg]

theorem reveal_length (ch : Char) (w g : List Char) (i : Nat) :
    (reveal w g ch i).length = g.length := by
  unfold reveal
  simp [reveal_loop_length]
  omega

/-! ## C strings in the input buffer -/

theorem takeWhile_nul (a b : List Char) (h : ∀ x ∈ a, x ≠ Char.ofNat 0) :
    (a ++ Char.ofNat 0 :: b).takeWhile (fun x => x ≠ Char.ofNat 0) = a := by
  induction a with
  | nil => simp
  | cons x t ih =>
    have hx : x ≠ Char.ofNat 0 := h x (by simp)
    have ht : ∀ y ∈ t, y ≠ Char.ofNat 0 := fun y hy => h y (by simp [hy])
    have := ih ht
    simp only [List.cons_append, List.takeWhile_cons, hx, ne_eq, not_false_eq_true,
      decide_True, if_true, this]

theorem cstr_store_zero (buf data : List Char) (off : Nat)
    (hold : ∀ x ∈ buf.take off, x ≠ Char.ofNat 0)
    (hnew : ∀ x ∈ data, x ≠ Char.ofNat 0) :
    cstr (store buf off (data ++ [Char.ofNat 0])) 0 = buf.take off ++ data := by
  unfold cstr store
  have : List.take off buf ++ (data ++ [Char.ofNat 0]) ++
      List.drop (off + (data ++ [Char.ofNat 0]).length) buf =
      (List.take off buf ++ data) ++ Char.ofNat 0 ::
        List.drop (off + (data ++ [Char.ofNat 0]).length) buf := by simp
  rw [List.drop_zero, this]
  apply takeWhile_nul
  intro x hx
  rcases List.mem_append.1 hx with h | h
  · exact hold x h
  · exact hnew x h

theorem cstr_store_cursor (buf data : List Char) (off : Nat) (hoff : off ≤ buf.length)
    (hnew : ∀ x ∈ data, x ≠ Char.ofNat 0) :
    cstr (store buf off (data ++ [Char.ofNat 0])) off = data := by
  unfold cstr store
  have hl : (List.take off buf).length = off := by simp [hoff]
  have : List.drop off (List.take off buf ++ (data ++ [Char.ofNat 0]) ++
      List.drop (off + (data ++ [Char.ofNat 0]).length) buf) =
      data ++ Char.ofNat 0 :: List.drop (off + (data ++ [Char.ofNat 0]).length) buf := by
    rw [List.append_assoc, List.drop_append_eq_append_drop, hl]
    simp
  rw [this]
  exact takeWhile_nul _ _ hnew

theorem strstr_crlf_some {l : List Char} {k : Nat} (h : strstr_crlf l = some k) :
    ∃ pre post, l = pre ++ Char.ofNat 13 :: Char.ofNat 10 :: post ∧ pre.length = k := by
  induction l generalizing k with
  | nil => simp [strstr_crlf] at h
  | cons a t ih =>
    unfold strstr_crlf at h
    split at h
    · rename_i hc
      cases t with
      | nil => simp at hc
      | cons b u =>
        simp at hc
        cases h
        exact ⟨[], u, by simp [hc.1, hc.2], rfl⟩
    · cases hr : strstr_crlf t with
      | none => simp [hr] at h
      | some j =>
        simp [hr] at h
        obtain ⟨pre, post, h1, h2⟩ := ih hr
        exact ⟨a :: pre, post, by simp [h1], by simp [h2, h]⟩

theorem store_headD (buf data : List Char) (off : Nat) (hd : data ≠ []) :
    (store buf off data).headD (Char.ofNat 0) = (buf.take off ++ data).headD (Char.ofNat 0) := by
  unfold store
  cases h : List.take off buf ++ data with
  | nil => simp at h; exact absurd h.2 hd
  | cons x t => simp [h]

theorem read_input_line {c : config} {p p1 : client} {data : List Char} {k : Nat}
    (hread : data.length ≤ c.MAX_BUF - p.in_ptr)
    (h : read_input c p data = some (read_result.line p1 k)) :
    data ≠ [] ∧ p1 = { p with inbuf := store p.inbuf p.in_ptr (data ++ [Char.ofNat 0]) } ∧
      ∃ j,
        strstr_crlf (cstr (store p.inbuf p.in_ptr (data ++ [Char.ofNat 0])) p.in_ptr) =
          some j ∧
        k = p.in_ptr + j := by
  unfold read_input at h
  rw [List.take_of_length_le hread] at h
  split at h
  · cases h
  · rename_i hne
    split at h
    · cases h
    · split at h
      · cases h
      · rename_i j hj
        cases h
        exact ⟨hne, rfl, j, hj, rfl⟩

/-! ## Runs on which every write succeeds -/

theorem only_out_refl (s : server) : only_out s s := ⟨rfl, rfl⟩

theorem only_out_trans {a b c : server} (h1 : only_out a b) (h2 : only_out b c) :
    only_out a c := ⟨h2.1.trans h1.1, h2.2.trans h1.2⟩

theorem write_only_out (e : env) (s : server) (fd : Int) (m : message) :
    only_out s (write e s fd m).2 := ⟨rfl, rfl⟩

theorem write_or_remove_ok {e : env} (hok : ∀ n, e.ok n = true) {s : server} {p : Int}
    (m : message) (hp : (deref s.game.head p).isSome) :
    write_or_remove e s p m = some (write e s p m).2 := by
  unfold write_or_remove
  cases hd : deref s.game.head p with
  | none => simp [hd] at hp
  | some c => simp [write, hok]

theorem broadcast_loop_ok {e : env} (hok : ∀ n, e.ok n = true) (m : message)
    (l : List client) (s : server) :
    ∃ s1, broadcast_loop e m l s = some s1 ∧ only_out s s1 := by
  induction l generalizing s with
  | nil => exact ⟨s, rfl, only_out_refl s⟩
  | cons p rest ih =>
    obtain ⟨s1, h1, h2⟩ := ih (write e s p.fd m).2
    refine ⟨s1, ?_, only_out_trans (write_only_out e s p.fd m) h2⟩
    unfold broadcast_loop
    have : (write e s p.fd m).1 = true := by simp [write, hok]
    simp only [this, if_true, h1]

theorem broadcast_without_inturn_loop_ok {e : env} (hok : ∀ n, e.ok n = true) (m : message)
    (l : List client) (s : server) :
    ∃ s1, broadcast_without_inturn_loop e m l s = some s1 ∧ only_out s s1 := by
  induction l generalizing s with
  | nil => exact ⟨s, rfl, only_out_refl s⟩
  | cons p rest ih =>
    unfold broadcast_without_inturn_loop
    by_cases ht : some p.fd = s.game.has_next_turn
    · simp only [ht, if_true]
      exact ih s
    · obtain ⟨s1, h1, h2⟩ := ih (write e s p.fd m).2
      have : (write e s p.fd m).1 = true := by simp [write, hok]
      simp only [ht, if_false, this, if_true, h1]
      exact ⟨s1, rfl, only_out_trans (write_only_out e s p.fd m) h2⟩

theorem announce_turn_ok {e : env} (hok : ∀ n, e.ok n = true) {s : server}
    (ht : turn_live s.game) : ∃ s1, announce_turn e s = some s1 ∧ only_out s s1 := by
  cases h : s.game.has_next_turn with
  | none => exact ⟨s, by simp [announce_turn, h], only_out_refl s⟩
  | some t =>
    have h2 := ht
    unfold turn_live at h2
    rw [h] at h2
    simp only [Option.all_some] at h2
    cases hd : deref s.game.head t with
    | none => simp [hd] at h2
    | some c =>
      simp only [announce_turn, h, hd, broadcast_without_inturn]
      exact broadcast_without_inturn_loop_ok hok _ _ _

theorem prompt_turn_ok {e : env} (hok : ∀ n, e.ok n = true) {s : server} (p : Int)
    (ht : turn_live s.game) : ∃ s1, prompt_turn e s p = some s1 ∧ only_out s s1 := by
  cases h : s.game.has_next_turn with
  | none => exact ⟨s, by simp [prompt_turn, h], only_out_refl s⟩
  | some t =>
    have h2 := ht
    unfold turn_live at h2
    rw [h] at h2
    simp only [Option.all_some] at h2
    cases hd : deref s.game.head t with
    | none => simp [hd] at h2
    | some c =>
      have : (write e s t message.you_guess).1 = true := by simp [write, hok]
      simp only [prompt_turn, h, hd, this, if_true]
      exact ⟨_, rfl, write_only_out _ _ _ _⟩

theorem after_active_ok {e : env} (hok : ∀ n, e.ok n = true) {s : server} (p : Int)
    (ht : turn_live s.game) : ∃ s1, after_active e s p = some s1 ∧ only_out s s1 := by
  obtain ⟨s1, h1, h2⟩ := announce_turn_ok hok ht
  have ht1 : turn_live s1.game := by rw [h2.1]; exact ht
  obtain ⟨s2, h3, h4⟩ := prompt_turn_ok hok p ht1
  exact ⟨s2, by simp [after_active, h1, h3], only_out_trans h2 h4⟩

/-! ## The cyclic order -/

theorem fds_set_client (l : List client) (q : client) : fds (set_client l q) = fds l := by
  induction l with
  | nil => rfl
  | cons c t ih =>
    unfold set_client
    by_cases h : c.fd = q.fd
    · simp [h, fds]
    · simp only [h, if_false, fds, List.map_cons] at ih ⊢
      rw [ih]

theorem deref_isSome_iff (l : List client) (t : Int) : (deref l t).isSome ↔ t ∈ fds l := by
  induction l with
  | nil => simp [deref, fds]
  | cons c r ih =>
    by_cases h : c.fd = t
    · simp [deref, fds, List.find?, h]
    · have h2 : ¬ t = c.fd := fun h3 => h h3.symm
      simp only [deref, fds] at ih
      simp [deref, fds, List.find?, h, h2, ih]

theorem deref_fd {l : List client} {t : Int} {c : client} (h : deref l t = some c) :
    c.fd = t := by
  have := List.find?_some h
  simpa using this

theorem next_of_eq_fds (l : List client) (t : Int) (h : t ∈ fds l) :
    next_of l t = some ((fds l)[(fds l).indexOf t + 1]?) := by
  induction l with
  | nil => simp [fds] at h
  | cons c r ih =>
    unfold next_of
    by_cases hc : c.fd = t
    · simp only [hc, if_true, fds, List.map_cons, List.indexOf_cons_self]
      cases r <;> simp
    · have h2 : t ∈ fds r := by
        simp only [fds, List.map_cons, List.mem_cons] at h
        rcases h with h | h
        · exact absurd h.symm hc
        · exact h
      simp only [hc, if_false, ih h2, fds, List.map_cons]
      rw [List.indexOf_cons_ne _ hc]
      simp

theorem next_of_set_client (l : List client) (q : client) (t : Int) (h : t ∈ fds l) :
    next_of (set_client l q) t = next_of l t := by
  rw [next_of_eq_fds _ _ (by rw [fds_set_client]; exact h), next_of_eq_fds _ _ h, fds_set_client]

/-- Calling `advance_turn` from a holder that is in the list gives the turn to the
cyclic successor. -/
theorem advance_turn_successor {g : game_state} {t : Int}
    (ht : g.has_next_turn = some t) (hin : t ∈ fds g.head) :
    advance_turn g = some { g with has_next_turn := successor g.head t } := by
  cases hh : g.head with
  | nil => rw [hh] at hin; simp [fds] at hin
  | cons h r =>
    have hn := next_of_eq_fds g.head t hin
    rw [hh] at hn hin
    simp only [advance_turn, hh, ht, hn]
    congr 2
    unfold successor
    have hidx : (fds (h :: r)).indexOf t < (fds (h :: r)).length := List.indexOf_lt_length.2 hin
    by_cases hlt : (fds (h :: r)).indexOf t + 1 < (fds (h :: r)).length
    · rw [Nat.mod_eq_of_lt hlt]
      rw [List.getElem?_eq_getElem hlt]
      simp
    · have heq : (fds (h :: r)).indexOf t + 1 = (fds (h :: r)).length := by omega
      rw [heq, Nat.mod_self]
      rw [List.getElem?_eq_none (le_refl _)]
      simp [fds]

theorem turn_live_iff (g : game_state) :
    turn_live g ↔ ∀ t, g.has_next_turn = some t → t ∈ fds g.head := by
  unfold turn_live
  cases h : g.has_next_turn with
  | none => simp
  | some t => simp [deref_isSome_iff]

theorem successor_mem {l : List client} {t : Int} (h : t ∈ fds l) :
    ∃ u, successor l t = some u ∧ u ∈ fds l := by
  unfold successor
  have hpos : 0 < (fds l).length := List.length_pos_of_mem h
  have hlt : ((fds l).indexOf t + 1) % (fds l).length < (fds l).length := Nat.mod_lt _ hpos
  exact ⟨_, List.getElem?_eq_getElem hlt, List.getElem_mem _⟩

theorem apply_guess_ok {e : env} (hok : ∀ n, e.ok n = true) {s : server} {p : Int}
    (ch : Char) (hp : (deref s.game.head p).isSome) :
    ∃ r, apply_guess e s p ch = some r ∧ r.1.game.head = s.game.head ∧
      r.1.game.has_next_turn = s.game.has_next_turn ∧ r.1.new_players = s.new_players ∧
      r.2 = decide (ch ∉ s.game.word) := by
  by_cases hin : ch ∈ s.game.word
  · have hne : ¬ first_index ch s.game.word = s.game.word.length := by
      rw [first_index_eq_length]; exact fun h => h hin
    simp only [apply_guess, hne, if_false]
    exact ⟨_, rfl, rfl, rfl, rfl, by simp [hin]⟩
  · have heq : first_index ch s.game.word = s.game.word.length :=
      (first_index_eq_length _ _).2 hin
    simp only [apply_guess, heq, if_true, write_or_remove_ok hok _ hp, Option.map_some']
    exact ⟨_, rfl, rfl, rfl, rfl, by simp [hin]⟩

theorem end_of_round_ok {e : env} (hok : ∀ n, e.ok n = true) {s : server} {p : Int}
    (hp : (deref s.game.head p).isSome) :
    ∃ s1, end_of_round e s p =
        some (s1, decide (s.game.word = s.game.guess ∨ s.game.guesses_left = 0)) ∧
      only_out s s1 := by
  unfold end_of_round
  by_cases hw : s.game.word = s.game.guess
  · simp only [hw, if_true, true_or, decide_True]
    rw [← hw]
    rw [write_or_remove_ok hok _ hp]
    have hp1 : (deref (write e s p (message.word_was s.game.word)).2.game.head p).isSome := hp
    simp only [Option.some_bind]
    rw [write_or_remove_ok hok _ hp1]
    simp only [Option.some_bind]
    have hp2 : (deref (write e (write e s p (message.word_was s.game.word)).2 p
        message.you_win).2.game.head p).isSome := hp
    cases hd : deref (write e (write e s p (message.word_was s.game.word)).2 p
        message.you_win).2.game.head p with
    | none => simp [hd] at hp2
    | some pc =>
      simp only [Option.some_bind]
      obtain ⟨s1, h1, h2⟩ := broadcast_without_inturn_loop_ok hok (message.winner pc.name)
        (write e (write e s p (message.word_was s.game.word)).2 p message.you_win).2.game.head
        (write e (write e s p (message.word_was s.game.word)).2 p message.you_win).2
      refine ⟨s1, ?_, ?_⟩
      · unfold broadcast_without_inturn
        rw [h1]; rfl
      · exact only_out_trans (only_out_trans (write_only_out _ _ _ _) (write_only_out _ _ _ _)) h2
  · by_cases hz : s.game.guesses_left = 0
    · obtain ⟨s1, h1, h2⟩ := broadcast_loop_ok hok message.no_guesses s.game.head s
      refine ⟨s1, ?_, h2⟩
      simp only [hw, if_false, hz, if_true, broadcast, h1, Option.map_some', or_true, decide_True]
    · exact ⟨s, by simp only [hw, if_false, hz, false_or, decide_False], only_out_refl s⟩

theorem finish_guess_ok (c : config) {e : env} (hok : ∀ n, e.ok n = true) {s : server}
    {p : Int} (ch : Char) (gf : Bool)
    (hp : (deref s.game.head p).isSome) (ht : s.game.has_next_turn = some p) :
    ∃ s1, finish_guess c e s p ch gf = some s1 ∧ s1.game.head = s.game.head ∧
      s1.new_players = s.new_players ∧
      s1.game.has_next_turn =
        if gf = true ∨ s.game.word = s.game.guess ∨ s.game.guesses_left = 0 then
          successor s.game.head p
        else some p := by
  unfold finish_guess
  cases hd : deref s.game.head p with
  | none => simp [hd] at hp
  | some pc =>
    simp only [Option.some_bind]
    rw [write_or_remove_ok hok _ hp]
    simp only [Option.some_bind]
    have hp1 : (deref (write e s p (message.guess_echo pc.name ch)).2.game.head p).isSome := hp
    obtain ⟨s1, h1, h2⟩ := end_of_round_ok hok hp1
    rw [h1]
    simp only [Option.some_bind]
    have hg1 : s1.game = s.game := h2.1
    generalize hover : decide ((write e s p (message.guess_echo pc.name ch)).2.game.word =
      (write e s p (message.guess_echo pc.name ch)).2.game.guess ∨
      (write e s p (message.guess_echo pc.name ch)).2.game.guesses_left = 0) = over
    have hover2 : over = decide (s.game.word = s.game.guess ∨ s.game.guesses_left = 0) :=
      hover.symm
    obtain ⟨s2, h3, h4⟩ := broadcast_loop_ok hok
      (status_message (if over = true then init_game c e s1 else s1).game)
      (if over = true then init_game c e s1 else s1).game.head
      (if over = true then init_game c e s1 else s1)
    unfold broadcast
    rw [h3]
    simp only [Option.some_bind]
    have hhead : s2.game.head = s.game.head := by
      rw [h4.1]; cases over <;> simp [init_game, hg1]
    have hturn : s2.game.has_next_turn = some p := by
      rw [h4.1]; cases over <;> simp [init_game, hg1, ht]
    have hnp : s2.new_players = s.new_players := by
      rw [h4.2]; cases over <;> simp [init_game, h2.2] <;> rfl
    have hin : p ∈ fds s2.game.head := by
      rw [hhead]; exact (deref_isSome_iff _ _).1 hp
    by_cases hadv : (gf || over) = true
    · rw [if_pos hadv, advance_turn_successor hturn hin]
      refine ⟨_, rfl, hhead, hnp, ?_⟩
      have : gf = true ∨ s.game.word = s.game.guess ∨ s.game.guesses_left = 0 := by
        rw [hover2] at hadv
        simpa using hadv
      simp only [this, if_true, hhead]
    · rw [if_neg hadv]
      refine ⟨_, rfl, hhead, hnp, ?_⟩
      have : ¬ (gf = true ∨ s.game.word = s.game.guess ∨ s.game.guesses_left = 0) := by
        rw [hover2] at hadv
        simpa using hadv
      simp only [this, if_false, hturn]

theorem line_taken_players (s : server) (p : client) (data : List Char) :
    fds (line_taken s p data).game.head = fds s.game.head ∧
      (line_taken s p data).game.has_next_turn = s.game.has_next_turn ∧
      (line_taken s p data).new_players = s.new_players ∧
      same_round s.game (line_taken s p data).game ∧
      (line_taken s p data).out = s.out :=
  ⟨fds_set_client _ _, rfl, rfl, same_round_refl _, rfl⟩

theorem active_input_line {c : config} (e : env) (s : server) {p p1 : client}
    {data : List Char} {k : Nat} (hread : data.length ≤ c.MAX_BUF - p.in_ptr)
    (hr : read_input c p data = some (read_result.line p1 k)) :
    active_input c e s p data =
      if s.game.has_next_turn ≠ some p.fd then
        write_or_remove e (line_taken s p data) p.fd message.not_your_turn
      else if is_valid p1.inbuf then
        handle_guess c e (line_taken s p data) p.fd (p1.inbuf.headD (Char.ofNat 0))
      else write_or_remove e (line_taken s p data) p.fd message.invalid_guess := by
  obtain ⟨-, hp1, -⟩ := read_input_line hread hr
  simp only [active_input, hr, line_taken, hp1]

/-! ## Runs with arbitrary write outcomes -/

theorem roster_shrinks_refl (s : server) : roster_shrinks s s :=
  ⟨same_round_refl _, rfl, List.Sublist.refl _⟩

theorem roster_shrinks_trans {a b c : server} (h1 : roster_shrinks a b)
    (h2 : roster_shrinks b c) : roster_shrinks a c :=
  ⟨same_round_trans h1.1 h2.1, h2.2.1.trans h1.2.1, h2.2.2.trans h1.2.2⟩

theorem remove_player_sublist (l : List client) (fd : Int) :
    (remove_player l fd).Sublist l := by
  induction l with
  | nil => exact List.Sublist.refl _
  | cons c t ih =>
    unfold remove_player
    split
    · exact List.sublist_cons_self c t
    · exact ih.cons₂ c

theorem remove_active_player_sublist {g g1 : game_state} {p : Int}
    (h : remove_active_player g p = some g1) : g1.head.Sublist g.head := by
  unfold remove_active_player at h
  split at h
  · cases h; exact List.Sublist.refl _
  · split at h
    · cases h
    · split at h
      · cases h; exact List.nil_sublist _
      · split at h
        · cases hq : advance_turn g with
          | none => simp [hq] at h
          | some g2 =>
            simp [hq] at h
            cases h
            simp only
            rw [(advance_turn_frame hq).2]
            exact remove_player_sublist _ _
        · simp at h
          cases h; exact remove_player_sublist _ _

theorem write_or_remove_shrinks {e : env} {s s1 : server} {p : Int} {m : message}
    (h : write_or_remove e s p m = some s1) : roster_shrinks s s1 := by
  have hr := write_or_remove_round h
  refine ⟨hr.1, hr.2.1, ?_⟩
  unfold write_or_remove at h
  split at h
  · cases h
  · split at h
    · cases h; exact List.Sublist.refl _
    · cases hq : remove_active_player s.game p with
      | none => simp [hq] at h
      | some g =>
        simp [hq] at h
        cases h
        exact remove_active_player_sublist hq

theorem broadcast_loop_frame {e : env} {m : message} {l : List client} {s s1 : server}
    (h : broadcast_loop e m l s = some s1) :
    roster_shrinks s s1 ∧ s1.game.has_next_turn = s.game.has_next_turn ∧
      s1.out = s.out ++ l.map (fun c => event.write c.fd m) := by
  induction l generalizing s with
  | nil =>
    simp only [broadcast_loop] at h
    cases h
    exact ⟨roster_shrinks_refl _, rfl, by simp⟩
  | cons p rest ih =>
    unfold broadcast_loop at h
    split at h
    · obtain ⟨h1, h2, h3⟩ := ih h
      exact ⟨h1, h2, by rw [h3]; simp [write]⟩
    · cases rest with
      | nil => cases h
      | cons q rest2 =>
        simp only at h
        obtain ⟨h1, h2, h3⟩ := ih h
        refine ⟨?_, h2, by rw [h3]; simp [write]⟩
        exact ⟨h1.1, h1.2.1, h1.2.2.trans (remove_player_sublist _ _)⟩

theorem broadcast_without_inturn_loop_frame {e : env} {m : message} {l : List client}
    {s s1 : server} (h : broadcast_without_inturn_loop e m l s = some s1) :
    roster_shrinks s s1 ∧ s1.game.has_next_turn = s.game.has_next_turn ∧
      s1.out = s.out ++
        (l.filter (fun c => decide (some c.fd ≠ s.game.has_next_turn))).map
          (fun c => event.write c.fd m) := by
  induction l generalizing s with
  | nil =>
    simp only [broadcast_without_inturn_loop] at h
    cases h
    exact ⟨roster_shrinks_refl _, rfl, by simp⟩
  | cons p rest ih =>
    unfold broadcast_without_inturn_loop at h
    by_cases ht : some p.fd = s.game.has_next_turn
    · simp only [ht, if_true] at h
      obtain ⟨h1, h2, h3⟩ := ih h
      exact ⟨h1, h2, by rw [h3]; simp [List.filter, ht]⟩
    · simp only [ht, if_false] at h
      split at h
      · obtain ⟨h1, h2, h3⟩ := ih h
        exact ⟨h1, h2, by rw [h3]; simp [List.filter, ht, write]⟩
      · cases rest with
        | nil => cases h
        | cons q rest2 =>
          simp only at h
          obtain ⟨h1, h2, h3⟩ := ih h
          refine ⟨?_, h2, by rw [h3]; simp [List.filter, ht, write]⟩
          exact ⟨h1.1, h1.2.1, h1.2.2.trans (remove_player_sublist _ _)⟩

theorem announce_turn_shrinks {e : env} {s s1 : server} (h : announce_turn e s = some s1) :
    roster_shrinks s s1 ∧ s1.game.has_next_turn = s.game.has_next_turn := by
  unfold announce_turn at h
  split at h
  · cases h; exact ⟨roster_shrinks_refl _, rfl⟩
  · split at h
    · cases h
    · have := broadcast_without_inturn_loop_frame h
      exact ⟨this.1, this.2.1⟩

theorem prompt_turn_shrinks {e : env} {s s1 : server} {p : Int}
    (h : prompt_turn e s p = some s1) : roster_shrinks s s1 := by
  unfold prompt_turn at h
  split at h
  · cases h; exact roster_shrinks_refl _
  · split at h
    · cases h
    · split at h
      · cases h; exact roster_shrinks_refl _
      · cases hq : remove_active_player s.game p with
        | none => simp [hq] at h
        | some g =>
          simp [hq] at h
          cases h
          exact ⟨remove_active_player_round hq, rfl, remove_active_player_sublist hq⟩

theorem after_active_shrinks {e : env} {s s1 : server} {p : Int}
    (h : after_active e s p = some s1) : roster_shrinks s s1 := by
  unfold after_active at h
  cases ha : announce_turn e s with
  | none => simp [ha] at h
  | some s2 =>
    simp only [ha, Option.some_bind] at h
    exact roster_shrinks_trans (announce_turn_shrinks ha).1 (prompt_turn_shrinks h)

theorem read_input_fd {c : config} {p p1 : client} {data : List Char} {k : Nat}
    (h : read_input c p data = some (read_result.line p1 k)) : p1.fd = p.fd := by
  unfold read_input at h
  split at h
  · cases h
  · split at h
    · cases h
    · split at h
      · cases h
      · cases h; rfl

theorem store_name_fd (c : config) (p : client) (k : Nat) : (store_name c p k).fd = p.fd := by
  unfold store_name
  split <;> rfl

theorem remove_player_not_mem {l : List client} {p : Int} (h : (fds l).Nodup) :
    p ∉ fds (remove_player l p) := by
  induction l with
  | nil => simp [remove_player, fds]
  | cons c t ih =>
    have hnd : (fds t).Nodup := by
      simp only [fds, List.map_cons, List.nodup_cons] at h; exact h.2
    have hc : c.fd ∉ fds t := by
      simp only [fds, List.map_cons, List.nodup_cons] at h; exact h.1
    unfold remove_player
    by_cases hfd : c.fd = p
    · simp only [hfd, if_true]
      rw [← hfd]; exact hc
    · simp only [hfd, if_false, fds, List.map_cons, List.mem_cons, not_or]
      exact ⟨fun h2 => hfd h2.symm, ih hnd⟩

/-- With distinct descriptors, a player that is still in the list after
`write_or_remove` was written to with success. -/
theorem write_or_remove_still {e : env} {s s1 : server} {p : Int} {m : message}
    (h : write_or_remove e s p m = some s1) (hnd : (fds s.game.head).Nodup)
    (hp : (deref s1.game.head p).isSome) : s1 = (write e s p m).2 := by
  unfold write_or_remove at h
  split at h
  · cases h
  · split at h
    · cases h; rfl
    · exfalso
      cases hq : remove_active_player s.game p with
      | none => simp [hq] at h
      | some g =>
        simp [hq] at h
        cases h
        simp only at hp
        rw [deref_isSome_iff] at hp
        unfold remove_active_player at hq
        split at hq
        · rename_i hh
          cases hq
          rw [hh] at hp
          simp [fds] at hp
        · split at hq
          · cases hq
          · split at hq
            · cases hq; simp [fds] at hp
            · split at hq
              · cases ha : advance_turn s.game with
                | none => simp [ha] at hq
                | some g2 =>
                  simp [ha] at hq
                  cases hq
                  simp only at hp
                  rw [(advance_turn_frame ha).2] at hp
                  exact remove_player_not_mem hnd hp
              · simp at hq
                cases hq
                exact remove_player_not_mem hnd hp

theorem bind_eq_some_elim {α β : Type} {x : Option α} {f : α → Option β} {b : β}
    (h : x.bind f = some b) : ∃ a, x = some a ∧ f a = some b := by
  cases x with
  | none => simp at h
  | some a => exact ⟨a, rfl, h⟩

theorem map_eq_some_elim {α β : Type} {x : Option α} {f : α → β} {b : β}
    (h : x.map f = some b) : ∃ a, x = some a ∧ f a = b := by
  cases x with
  | none => simp at h
  | some a => exact ⟨a, rfl, by simpa using h⟩

/-- The steps of `finish_guess`, when it returns. -/
theorem finish_guess_some {c : config} {e : env} {s s1 : server} {p : Int} {ch : Char}
    {gf : Bool} (h : finish_guess c e s p ch gf = some s1) :
    ∃ pc s_e s_r over s_b,
      deref s.game.head p = some pc ∧
      write_or_remove e s p (message.guess_echo pc.name ch) = some s_e ∧
      end_of_round e s_e p = some (s_r, over) ∧
      broadcast e (if over = true then init_game c e s_r else s_r)
        (status_message (if over = true then init_game c e s_r else s_r).game) = some s_b ∧
      (if (gf || over) = true then (advance_turn s_b.game).map (fun g => { s_b with game := g })
        else some s_b) = some s1 := by
  unfold finish_guess at h
  obtain ⟨pc, h1, h⟩ := bind_eq_some_elim h
  obtain ⟨s_e, h2, h⟩ := bind_eq_some_elim h
  obtain ⟨r, h3, h⟩ := bind_eq_some_elim h
  obtain ⟨s_b, h4, h⟩ := bind_eq_some_elim h
  exact ⟨pc, s_e, r.1, r.2, s_b, h1, h2, h3, h4, h⟩

/-- The steps of `end_of_round` on a completed word, when it returns. -/
theorem end_of_round_win {e : env} {s s1 : server} {p : Int} {over : Bool}
    (hw : s.game.word = s.game.guess) (h : end_of_round e s p = some (s1, over)) :
    ∃ s_a s_b pc,
      write_or_remove e s p (message.word_was s.game.word) = some s_a ∧
      write_or_remove e s_a p message.you_win = some s_b ∧
      deref s_b.game.head p = some pc ∧
      broadcast_without_inturn e s_b (message.winner pc.name) = some s1 ∧ over = true := by
  unfold end_of_round at h
  rw [if_pos hw] at h
  obtain ⟨s_a, h1, h⟩ := bind_eq_some_elim h
  obtain ⟨s_b, h2, h⟩ := bind_eq_some_elim h
  obtain ⟨pc, h3, h⟩ := bind_eq_some_elim h
  obtain ⟨s_c, h4, h⟩ := map_eq_some_elim h
  cases h
  exact ⟨s_a, s_b, pc, h1, h2, h3, h4, rfl⟩

/-- What `end_of_round` does when the word is not complete. -/
theorem end_of_round_no_win {e : env} {s s1 : server} {p : Int} {over : Bool}
    (hw : s.game.word ≠ s.game.guess) (h : end_of_round e s p = some (s1, over)) :
    (s.game.guesses_left = 0 ∧ broadcast e s message.no_guesses = some s1 ∧ over = true) ∨
    (s.game.guesses_left ≠ 0 ∧ s1 = s ∧ over = false) := by
  unfold end_of_round at h
  rw [if_neg hw] at h
  by_cases hz : s.game.guesses_left = 0
  · rw [if_pos hz] at h
    obtain ⟨s_c, h4, h⟩ := map_eq_some_elim h
    cases h
    exact Or.inl ⟨hz, h4, rfl⟩
  · rw [if_neg hz] at h
    cases h
    exact Or.inr ⟨hz, rfl, rfl⟩

theorem end_of_round_shrinks {e : env} {s s1 : server} {p : Int} {over : Bool}
    (h : end_of_round e s p = some (s1, over)) :
    roster_shrinks s s1 ∧
      over = decide (s.game.word = s.game.guess ∨ s.game.guesses_left = 0) := by
  by_cases hw : s.game.word = s.game.guess
  · obtain ⟨s_a, s_b, pc, h1, h2, -, h4, h5⟩ := end_of_round_win hw h
    refine ⟨roster_shrinks_trans (write_or_remove_shrinks h1)
      (roster_shrinks_trans (write_or_remove_shrinks h2)
        (broadcast_without_inturn_loop_frame h4).1), ?_⟩
    simp [h5, hw]
  · rcases end_of_round_no_win hw h with ⟨hz, hb, ho⟩ | ⟨hz, hs, ho⟩
    · exact ⟨(broadcast_loop_frame hb).1, by simp [ho, hz]⟩
    · rw [hs]; exact ⟨roster_shrinks_refl _, by simp [ho, hz, hw]⟩

theorem write_or_remove_deref {e : env} {s s1 : server} {p : Int} {m : message}
    (h : write_or_remove e s p m = some s1) : (deref s.game.head p).isSome := by
  unfold write_or_remove at h
  split at h
  · cases h
  · rename_i hd; simp [hd]

theorem status_message_round {g g1 : game_state} (h : same_round g g1) :
    status_message g1 = status_message g := by
  unfold status_message
  rw [h.2.1, h.2.2.1, h.2.2.2]

/-- With distinct descriptors, a guesser that is still in the list after
`apply_guess` has been written to with success, if at all. -/
theorem apply_guess_still {e : env} {s : server} {p : Int} {ch : Char} {r : server × Bool}
    (h : apply_guess e s p ch = some r) (hnd : (fds s.game.head).Nodup)
    (hp : (deref r.1.game.head p).isSome) :
    r.1.game.head = s.game.head ∧ r.1.game.has_next_turn = s.game.has_next_turn ∧
      r.1.new_players = s.new_players := by
  unfold apply_guess at h
  split at h
  · obtain ⟨s2, h1, h2⟩ := map_eq_some_elim h
    cases h2
    have := write_or_remove_still h1 hnd hp
    rw [this]
    exact ⟨rfl, rfl, rfl⟩
  · cases h
    exact ⟨rfl, rfl, rfl⟩

theorem others_eq_filter (l : List client) (p : Int) :
    l.filter (fun c => decide (some c.fd ≠ some p)) = others l p := by
  unfold others
  congr 1
  funext c
  simp

theorem advance_or_not_frame {s s1 : server} {b : Bool}
    (h : (if b = true then (advance_turn s.game).map (fun g => { s with game := g })
      else some s) = some s1) :
    same_round s.game s1.game ∧ s1.game.head = s.game.head ∧
      s1.new_players = s.new_players ∧ s1.out = s.out := by
  split at h
  · obtain ⟨g, h1, h2⟩ := map_eq_some_elim h
    cases h2
    exact ⟨(advance_turn_frame h1).1, (advance_turn_frame h1).2, rfl, rfl⟩
  · cases h
    exact ⟨same_round_refl _, rfl, rfl, rfl⟩

theorem apply_guess_budget {e : env} {s : server} {p : Int} {ch : Char} {r : server × Bool}
    (h : apply_guess e s p ch = some r) :
    r.1.game.head.Sublist s.game.head ∧ r.1.new_players = s.new_players ∧
      r.1.game.word = s.game.word ∧
      (r.1.game.guesses_left = s.game.guesses_left ∨
        r.1.game.guesses_left = s.game.guesses_left - 1) := by
  unfold apply_guess at h
  split at h
  · obtain ⟨s2, h1, h2⟩ := map_eq_some_elim h
    cases h2
    have hs := write_or_remove_shrinks h1
    exact ⟨hs.2.2, hs.2.1, hs.1.1, Or.inr (by simp [hs.1.2.2.2])⟩
  · cases h
    exact ⟨List.Sublist.refl _, rfl, rfl, Or.inl rfl⟩

/-- What `finish_guess` does when the word is not complete. -/
theorem finish_guess_no_win {c : config} {e : env} {s s1 : server} {p : Int} {ch : Char}
    {gf : Bool} (hw : s.game.word ≠ s.game.guess)
    (h : finish_guess c e s p ch gf = some s1) :
    ∃ (pc : client) (s_e : server), deref s.game.head p = some pc ∧
      write_or_remove e s p (message.guess_echo pc.name ch) = some s_e ∧
      (s.game.guesses_left = 0 →
        ∃ l : List client, l.Sublist s_e.game.head ∧
          s1.out = s_e.out ++
            s_e.game.head.map (fun q => event.write q.fd message.no_guesses) ++
            event.init_game :: l.map (fun q => event.write q.fd (status_message s1.game)) ∧
          s1.game.word = e.pick (s_e.out.length + s_e.game.head.length) ∧
          s1.game.guess = List.replicate s1.game.word.length c.placeholder ∧
          s1.game.letters_guessed = List.replicate 26 0 ∧
          s1.game.guesses_left = c.MAX_GUESSES) ∧
      (s.game.guesses_left ≠ 0 →
        s1.out = s_e.out ++
          s_e.game.head.map (fun q => event.write q.fd (status_message s.game)) ∧
        same_round s.game s1.game) := by
  obtain ⟨pc, s_e, s_r, over, s_b, h1, h2, h3, h4, h5⟩ := finish_guess_some h
  have hre := (write_or_remove_round h2).1
  have hw2 : s_e.game.word ≠ s_e.game.guess := by rw [hre.1, hre.2.1]; exact hw
  refine ⟨pc, s_e, h1, h2, fun hz => ?_, fun hz => ?_⟩
  · have hz2 : s_e.game.guesses_left = 0 := by rw [hre.2.2.2]; exact hz
    rcases end_of_round_no_win hw2 h3 with ⟨-, hb, ho⟩ | ⟨hnz, -, -⟩
    · subst ho
      simp only [if_true] at h4 h5
      obtain ⟨b1, -, b3⟩ := broadcast_loop_frame hb
      obtain ⟨d1, -, d3⟩ := broadcast_loop_frame h4
      obtain ⟨f1, -, -, f4⟩ := advance_or_not_frame (b := (gf || true)) (by simpa using h5)
      have hround : same_round (init_game c e s_r).game s1.game := same_round_trans d1.1 f1
      have hst : status_message (init_game c e s_r).game = status_message s1.game :=
        (status_message_round hround).symm
      refine ⟨(init_game c e s_r).game.head, b1.2.2, ?_, ?_, ?_, ?_, ?_⟩
      · rw [f4, d3, ← hst]
        simp only [init_game, b3]
        simp
      · rw [hround.1]
        simp only [init_game, b3]
        congr 1
        simp
      · rw [hround.2.1, hround.1]; rfl
      · rw [hround.2.2.1]; rfl
      · rw [hround.2.2.2]; rfl
    · exact absurd hz2 hnz
  · have hz2 : s_e.game.guesses_left ≠ 0 := by rw [hre.2.2.2]; exact hz
    rcases end_of_round_no_win hw2 h3 with ⟨hz3, -, -⟩ | ⟨-, hs, ho⟩
    · exact absurd hz3 hz2
    · subst ho
      subst hs
      simp only [Bool.false_eq_true, if_false] at h4 h5
      obtain ⟨d1, -, d3⟩ := broadcast_loop_frame h4
      obtain ⟨f1, -, -, f4⟩ := advance_or_not_frame (b := (gf || false)) (by simpa using h5)
      refine ⟨?_, same_round_trans hre (same_round_trans d1.1 f1)⟩
      rw [f4, d3, status_message_round hre]

/-- After `finish_guess` the players are players of before, and either the
round was reset or it is the round of before with guesses left. -/
theorem finish_guess_round {c : config} {e : env} {s s1 : server} {p : Int} {ch : Char}
    {gf : Bool} (h : finish_guess c e s p ch gf = some s1) :
    s1.game.head.Sublist s.game.head ∧ s1.new_players = s.new_players ∧
      (s1.game.guesses_left = c.MAX_GUESSES ∨
        (s1.game.guesses_left = s.game.guesses_left ∧ s.game.guesses_left ≠ 0)) := by
  obtain ⟨pc, s_e, s_r, over, s_b, h1, h2, h3, h4, h5⟩ := finish_guess_some h
  have a := write_or_remove_shrinks h2
  obtain ⟨b, hover⟩ := end_of_round_shrinks h3
  obtain ⟨d, -, -⟩ := broadcast_loop_frame h4
  obtain ⟨f1, f2, f3, -⟩ := advance_or_not_frame h5
  have hab := roster_shrinks_trans a b
  cases over with
  | true =>
    simp only [if_true] at d
    refine ⟨?_, ?_, Or.inl ?_⟩
    · rw [f2]; exact d.2.2.trans hab.2.2
    · rw [f3, d.2.1]; exact hab.2.1
    · rw [f1.2.2.2, d.1.2.2.2]; rfl
  | false =>
    simp only [Bool.false_eq_true, if_false] at d
    have hall := roster_shrinks_trans hab d
    refine ⟨?_, ?_, Or.inr ⟨?_, ?_⟩⟩
    · rw [f2]; exact hall.2.2
    · rw [f3]; exact hall.2.1
    · rw [f1.2.2.2]; exact hall.1.2.2.2
    · have : ¬ (s_e.game.word = s_e.game.guess ∨ s_e.game.guesses_left = 0) := by
        simpa using hover.symm
      rw [a.1.2.2.2] at this
      exact fun hz => this (Or.inr hz)

theorem read_input_keeps {c : config} {p : client} {data : List Char} {x : read_result}
    (h : read_input c p data = some x) :
    match x with
    | read_result.closed => True
    | read_result.pending p1 => p1.fd = p.fd ∧ p1.name = p.name
    | read_result.line p1 _ => p1.fd = p.fd ∧ p1.name = p.name := by
  unfold read_input at h
  split at h
  · cases h; trivial
  · split at h
    · cases h
    · split at h
      · cases h; exact ⟨rfl, rfl⟩
      · cases h; exact ⟨rfl, rfl⟩

theorem names_set_client {l : List client} {p q : client} (hp : deref l q.fd = some p)
    (hn : q.name = p.name) : names (set_client l q) = names l := by
  induction l with
  | nil => rfl
  | cons c t ih =>
    unfold set_client
    by_cases hc : c.fd = q.fd
    · have : p = c := by
        simp [deref, List.find?, hc] at hp
        exact hp.symm
      subst this
      simp [hc, names, hn]
    · have hp2 : deref t q.fd = some p := by
        simpa [deref, List.find?, hc] using hp
      simp only [hc, if_false, names, List.map_cons] at ih ⊢
      rw [ih hp2]

theorem names_sublist {l l1 : List client} (h : l1.Sublist l) :
    (names l1).Sublist (names l) := h.map _

theorem check_name_iff (g : game_state) (n : List Char) :
    check_name g n = true ↔ n ∈ names g.head := by
  unfold check_name names
  simp only [List.any_eq_true, decide_eq_true_eq, List.mem_map]

/-- Input of an active player leaves the new players alone, removes active
players at most, and keeps a positive number of guesses. -/
theorem active_input_step {c : config} {e : env} {s s1 : server} {p : client}
    {data : List Char} (hp : deref s.game.head p.fd = some p)
    (h : active_input c e s p data = some s1) :
    (names s1.game.head).Sublist (names s.game.head) ∧
      (0 < c.MAX_GUESSES → 0 < s.game.guesses_left → 0 < s1.game.guesses_left) := by
  unfold active_input at h
  split at h
  · cases h
  · obtain ⟨g, h1, h2⟩ := map_eq_some_elim h
    cases h2
    exact ⟨names_sublist (remove_active_player_sublist h1),
      fun _ hb => by rw [(remove_active_player_round h1).2.2.2]; exact hb⟩
  · rename_i p1 hr
    have hk := read_input_keeps hr
    simp only at hk
    cases h
    simp only
    rw [names_set_client (by rw [hk.1]; exact hp) hk.2]
    exact ⟨List.Sublist.refl _, fun _ hb => hb⟩
  · rename_i p1 k hr
    have hk := read_input_keeps hr
    simp only at hk
    have hn : names (set_client s.game.head { p1 with in_ptr := 0 }) = names s.game.head :=
      names_set_client (p := p) (by simp only [hk.1]; exact hp) (by simp only [hk.2])
    have hrej : ∀ m, write_or_remove e
        { s with game := { s.game with head := set_client s.game.head { p1 with in_ptr := 0 } } }
        p.fd m = some s1 →
        (names s1.game.head).Sublist (names s.game.head) ∧
          (0 < c.MAX_GUESSES → 0 < s.game.guesses_left → 0 < s1.game.guesses_left) := by
      intro m hm
      have hs := write_or_remove_shrinks hm
      refine ⟨?_, fun _ hb => by rw [hs.1.2.2.2]; exact hb⟩
      have := names_sublist hs.2.2
      simp only at this
      rw [hn] at this
      exact this
    split at h
    · exact hrej _ h
    · split at h
      · unfold handle_guess at h
        obtain ⟨r, h1, h2⟩ := bind_eq_some_elim h
        obtain ⟨a1, -, -, a4⟩ := apply_guess_budget h1
        obtain ⟨b1, -, b3⟩ := finish_guess_round h2
        refine ⟨?_, fun hm hb => ?_⟩
        · have := names_sublist (b1.trans a1)
          simp only at this
          rw [hn] at this
          exact this
        · simp only at a4
          rcases b3 with b3 | ⟨b3, b4⟩
          · rw [b3]; exact hm
          · rw [b3]
            rcases a4 with a4 | a4
            · rw [a4]; exact hb
            · rw [a4] at b4 ⊢
              omega
      · exact hrej _ h

theorem promote_step {e : env} {s s1 : server} {p : client} (h : promote e s p = some s1) :
    same_round s.game s1.game ∧
      (names s1.game.head).Sublist (p.name :: names s.game.head) := by
  unfold promote at h
  obtain ⟨s2, h1, h⟩ := bind_eq_some_elim h
  obtain ⟨s3, h2, h⟩ := bind_eq_some_elim h
  obtain ⟨s4, h3, h⟩ := bind_eq_some_elim h
  obtain ⟨s5, h4, h⟩ := bind_eq_some_elim h
  obtain ⟨a, -, -⟩ := broadcast_loop_frame h1
  have b : same_round s2.game s3.game ∧ s3.game.head = s2.game.head := by
    split at h2
    · obtain ⟨g, h5, h6⟩ := map_eq_some_elim h2
      cases h6
      exact advance_turn_frame h5
    · cases h2; exact ⟨same_round_refl _, rfl⟩
  have d := write_or_remove_shrinks h3
  have f := prompt_turn_shrinks h4
  have i := (announce_turn_shrinks h).1
  have hdfi := roster_shrinks_trans d (roster_shrinks_trans f i)
  refine ⟨same_round_trans a.1 (same_round_trans b.1 hdfi.1), ?_⟩
  have hsub : s1.game.head.Sublist ({ p with in_ptr := 0 } :: s.game.head) := by
    have := hdfi.2.2
    rw [b.2] at this
    exact this.trans a.2.2
  exact names_sublist hsub

theorem reject_name_step (e : env) (s : server) (p : client) (m : message) :
    (reject_name e s p m).game = s.game := by
  unfold reject_name
  split <;> rfl

/-- Input of a new player leaves the round alone; the active players remain,
or the sender joins them under a name none of them has. -/
theorem lobby_input_step {c : config} {e : env} {s s1 : server} {p : client}
    {data : List Char} (h : lobby_input c e s p data = some s1) :
    same_round s.game s1.game ∧
      ((names s1.game.head).Sublist (names s.game.head) ∨
        ∃ n, n ∉ names s.game.head ∧
          (names s1.game.head).Sublist (n :: names s.game.head)) := by
  unfold lobby_input at h
  split at h
  · cases h
  · cases h; exact ⟨same_round_refl _, Or.inl (List.Sublist.refl _)⟩
  · cases h; exact ⟨same_round_refl _, Or.inl (List.Sublist.refl _)⟩
  · rename_i p1 k hr
    split at h
    · cases h
      rw [reject_name_step]
      exact ⟨same_round_refl _, Or.inl (List.Sublist.refl _)⟩
    · split at h
      · cases h
        rw [reject_name_step]
        exact ⟨same_round_refl _, Or.inl (List.Sublist.refl _)⟩
      · rename_i hne hck
        have hnot : (store_name c p1 k).name ∉ names s.game.head := by
          rw [← check_name_iff]; exact hck
        obtain ⟨a, b⟩ := promote_step h
        exact ⟨a, Or.inr ⟨_, hnot, b⟩⟩

theorem nodup_of_step_names {l l1 : List (List Char)} (hn : l.Nodup)
    (h : l1.Sublist l ∨ ∃ n, n ∉ l ∧ l1.Sublist (n :: l)) : l1.Nodup := by
  rcases h with h | ⟨n, h1, h2⟩
  · exact hn.sublist h
  · exact (List.nodup_cons.2 ⟨h1, hn⟩).sublist h2

/-- What one event does to the names of the active players and to the
guesses left. -/
theorem step_invariants {c : config} {s s1 : server} (h : step c s s1) :
    ((names s.game.head).Nodup → (names s1.game.head).Nodup) ∧
      (0 < c.MAX_GUESSES → 0 < s.game.guesses_left → 0 < s1.game.guesses_left) := by
  cases h with
  | accept e clientfd junk p h =>
    unfold accept_client at h
    split at h
    · cases h; exact ⟨fun hn => hn, fun _ hb => hb⟩
    · split at h
      · cases h
      · split at h
        · cases h
          exact ⟨fun hn => hn.sublist (names_sublist (remove_player_sublist _ _)),
            fun _ hb => hb⟩
        · cases h
  | input e cur_fd data h =>
    unfold handle_input at h
    split at h
    · rename_i p hp
      obtain ⟨s2, h1, h2⟩ := bind_eq_some_elim h
      have hfd : p.fd = cur_fd := deref_fd hp
      obtain ⟨a, b⟩ := active_input_step (by rw [hfd]; exact hp) h1
      have d := after_active_shrinks h2
      exact ⟨fun hn => hn.sublist ((names_sublist d.2.2).trans a),
        fun hm hb => by rw [d.1.2.2.2]; exact b hm hb⟩
    · split at h
      · obtain ⟨a, b⟩ := lobby_input_step h
        exact ⟨fun hn => nodup_of_step_names hn b, fun _ hb => by rw [a.2.2.2]; exact hb⟩
      · cases h; exact ⟨fun hn => hn, fun _ hb => hb⟩

theorem runs_invariants {c : config} {s s1 : server} (h : runs c s s1) :
    ((names s.game.head).Nodup → (names s1.game.head).Nodup) ∧
      (0 < c.MAX_GUESSES → 0 < s.game.guesses_left → 0 < s1.game.guesses_left) := by
  induction h with
  | refl => exact ⟨fun hn => hn, fun _ hb => hb⟩
  | tail _ hstep ih =>
    obtain ⟨a, b⟩ := step_invariants hstep
    exact ⟨fun hn => a (ih.1 hn), fun hm hb => b hm (ih.2 hm hb)⟩

/-! ## The turn scheduler -/

theorem successor_at {l : List client} {i : Nat} {t : Int} (hnd : (fds l).Nodup)
    (hi : (fds l)[i]? = some t) :
    successor l t = (fds l)[(i + 1) % (fds l).length]? := by
  unfold successor
  obtain ⟨hlt, heq⟩ := List.getElem?_eq_some.1 hi
  have := List.indexOf_getElem hnd i hlt
  rw [heq] at this
  rw [this]

theorem advance_turn_at {g : game_state} {i : Nat} {t : Int} (hnd : (fds g.head).Nodup)
    (hi : (fds g.head)[i]? = some t) (ht : g.has_next_turn = some t) :
    advance_turn g =
      some { g with has_next_turn := (fds g.head)[(i + 1) % (fds g.head).length]? } := by
  have hin : t ∈ fds g.head := List.getElem?_mem hi
  rw [advance_turn_successor ht hin, successor_at hnd hi]

theorem advance_turns_from {k : Nat} {g : game_state} {j : Nat} (hnd : (fds g.head).Nodup)
    (hpos : 0 < (fds g.head).length)
    (ht : g.has_next_turn = (fds g.head)[j % (fds g.head).length]?) :
    advance_turns k g =
      some ((List.range k).map (fun m => (fds g.head)[(j + 1 + m) % (fds g.head).length]?),
        { g with has_next_turn := (fds g.head)[(j + k) % (fds g.head).length]? }) := by
  induction k generalizing g j with
  | zero =>
    simp only [advance_turns, List.range_zero, List.map_nil, Nat.add_zero, ← ht]
  | succ k ih =>
    have hlt : j % (fds g.head).length < (fds g.head).length := Nat.mod_lt _ hpos
    have hi : (fds g.head)[j % (fds g.head).length]? =
        some ((fds g.head)[j % (fds g.head).length]) := List.getElem?_eq_getElem hlt
    have hadv := advance_turn_at hnd hi (by rw [ht, hi])
    have hmod : (j % (fds g.head).length + 1) % (fds g.head).length =
        (j + 1) % (fds g.head).length := by
      rw [Nat.add_mod, Nat.mod_mod, ← Nat.add_mod]
    rw [hmod] at hadv
    have ih2 := ih (g := { g with
        has_next_turn := (fds g.head)[(j + 1) % (fds g.head).length]? }) (j := j + 1) hnd hpos rfl
    simp only [advance_turns, hadv, Option.some_bind, ih2, Option.map_some']
    congr 1
    rw [List.range_succ_eq_map, List.map_cons, List.map_map]
    refine Prod.ext ?_ ?_
    · simp only [Nat.add_zero, List.cons.injEq, true_and]
      apply List.map_congr_left
      intro m _
      simp only [Function.comp]
      congr 2
      omega
    · simp only
      congr 3
      omega

/-! ## The name taken from a line -/

theorem strstr_crlf_terminator (line rest : List Char) (h : strstr_crlf line = none) :
    strstr_crlf (line ++ Char.ofNat 13 :: Char.ofNat 10 :: rest) = some line.length := by
  induction line with
  | nil => simp [strstr_crlf]
  | cons a t ih =>
    unfold strstr_crlf at h
    split at h
    · cases h
    · rename_i hc
      have ht : strstr_crlf t = none := by
        cases hs : strstr_crlf t with
        | none => rfl
        | some k => simp [hs] at h
      have hc2 : ¬ (a = Char.ofNat 13 ∧
          (t ++ Char.ofNat 13 :: Char.ofNat 10 :: rest).head? = some (Char.ofNat 10)) := by
        rintro ⟨h1, h2⟩
        cases t with
        | nil => simp at h2
        | cons b u =>
          simp at h2
          exact hc ⟨h1, by simp [h2]⟩
      have hstep : strstr_crlf (a :: (t ++ Char.ofNat 13 :: Char.ofNat 10 :: rest)) =
          (strstr_crlf (t ++ Char.ofNat 13 :: Char.ofNat 10 :: rest)).map (fun k => k + 1) := by
        rw [strstr_crlf, if_neg hc2]
      rw [List.cons_append, hstep, ih ht]
      rfl

theorem set_append_length (a b : List Char) (x y : Char) :
    (a ++ x :: b).set a.length y = a ++ y :: b := by
  induction a with
  | nil => rfl
  | cons c t ih => simp [ih]

theorem read_input_single {c : config} {p : client} {line : List Char}
    (hptr : p.in_ptr = 0) (hfit : line.length + 2 < c.MAX_BUF)
    (hnul : ∀ b ∈ line, b ≠ Char.ofNat 0) (hcrlf : strstr_crlf line = none) :
    read_input c p (line ++ [Char.ofNat 13, Char.ofNat 10]) =
      some (read_result.line
        { p with
          inbuf := line ++ Char.ofNat 13 :: Char.ofNat 10 :: Char.ofNat 0 ::
            p.inbuf.drop (line.length + 3) }
        line.length) := by
  have hlen : (line ++ [Char.ofNat 13, Char.ofNat 10]).length = line.length + 2 := by simp
  have htake : (line ++ [Char.ofNat 13, Char.ofNat 10]).take (c.MAX_BUF - p.in_ptr) =
      line ++ [Char.ofNat 13, Char.ofNat 10] := by
    apply List.take_of_length_le
    rw [hlen, hptr]; omega
  have hdnul : ∀ b ∈ line ++ [Char.ofNat 13, Char.ofNat 10], b ≠ Char.ofNat 0 := by
    intro b hb
    rcases List.mem_append.1 hb with h | h
    · exact hnul b h
    · simp at h
      rcases h with h | h <;> rw [h] <;> decide
  have hcs := cstr_store_zero p.inbuf (line ++ [Char.ofNat 13, Char.ofNat 10]) 0
    (by simp) hdnul
  have hfind : strstr_crlf (line ++ [Char.ofNat 13, Char.ofNat 10]) = some line.length :=
    strstr_crlf_terminator line [] hcrlf
  have hstore : store p.inbuf 0 (line ++ [Char.ofNat 13, Char.ofNat 10] ++ [Char.ofNat 0]) =
      line ++ Char.ofNat 13 :: Char.ofNat 10 :: Char.ofNat 0 ::
        p.inbuf.drop (line.length + 3) := by
    simp [store]
  have hne : ¬ (line ++ [Char.ofNat 13, Char.ofNat 10] = []) := by simp
  have hnot : ¬ (c.MAX_BUF ≤ 0 + (line ++ [Char.ofNat 13, Char.ofNat 10]).length) := by
    rw [hlen]; omega
  unfold read_input
  rw [htake, hptr]
  simp only [List.take_zero, List.nil_append] at hcs
  rw [if_neg hne, if_neg hnot, hcs, hfind]
  simp only [hstore, Nat.zero_add]

/-! ## Masked progress -/

theorem char_toNat_inj {a b : Char} (h : a.toNat = b.toNat) : a = b := by
  rw [← Char.ofNat_toNat a, ← Char.ofNat_toNat b, h]

theorem masked_ok_round {ph : Char} {g g1 : game_state} (h : same_round g g1)
    (hm : masked_ok ph g) : masked_ok ph g1 := by
  obtain ⟨h1, h2, h3, -⟩ := h
  unfold masked_ok guessed at hm ⊢
  rw [h1, h2, h3]
  exact hm

theorem masked_ok_start {ph : Char} {g : game_state}
    (hstart : g.guess = List.replicate g.word.length ph)
    (hnone : g.letters_guessed = List.replicate 26 0) : masked_ok ph g := by
  refine ⟨by rw [hstart]; simp, by rw [hnone]; simp, fun i w hw => ?_⟩
  have hi : i < g.word.length := (List.getElem?_eq_some.1 hw).1
  have hg : guessed g w = false := by
    unfold guessed
    rw [hnone]
    simp only [decide_eq_false_iff_not, not_and]
    intro _ _
    rw [List.getElem?_replicate]
    split <;> simp
  rw [hstart, List.getElem?_replicate_of_lt hi, hg]
  simp

/-- What `apply_guess` does to the round, whatever the outcome of the write. -/
theorem apply_guess_round {e : env} {s : server} {p : Int} {ch : Char} {r : server × Bool}
    (hlen : s.game.guess.length = s.game.word.length)
    (h : apply_guess e s p ch = some r) :
    r.1.game.word = s.game.word ∧
      r.1.game.guess.length = s.game.guess.length ∧
      r.1.game.letters_guessed = s.game.letters_guessed.set (ch.toNat - 97) 1 ∧
      ∀ i, i < s.game.word.length →
        r.1.game.guess[i]? = if s.game.word[i]? = some ch then some ch else s.game.guess[i]? := by
  unfold apply_guess at h
  split at h
  · rename_i hmiss
    obtain ⟨s2, h1, h2⟩ := map_eq_some_elim h
    cases h2
    have hs := (write_or_remove_round h1).1
    have hnot : ch ∉ s.game.word := (first_index_eq_length _ _).1 hmiss
    refine ⟨hs.1, by simp only [hs.2.1], by simp only [hs.2.2.1], fun i hi => ?_⟩
    have hne : s.game.word[i]? ≠ some ch := fun hc => hnot (List.getElem?_mem hc)
    simp only [hs.2.1, hne, if_false]
  · cases h
    exact ⟨rfl, reveal_length _ _ _ _, rfl, fun i hi => reveal_getElem? ch _ _ hlen i hi⟩

theorem apply_guess_masked {ph : Char} {e : env} {s : server} {p : Int} {ch : Char}
    {r : server × Bool} (hv : 97 ≤ ch.toNat ∧ ch.toNat ≤ 122)
    (hm : masked_ok ph s.game) (h : apply_guess e s p ch = some r) :
    masked_ok ph r.1.game := by
  obtain ⟨hlen, h26, hpos⟩ := hm
  obtain ⟨hw, hl, hset, hg⟩ := apply_guess_round hlen h
  refine ⟨by rw [hl, hw]; exact hlen, by rw [hset]; simp [h26], fun i w hiw => ?_⟩
  rw [hw] at hiw
  have hi : i < s.game.word.length := (List.getElem?_eq_some.1 hiw).1
  rw [hg i hi, hiw]
  by_cases hc : w = ch
  · subst hc
    have : guessed r.1.game w = true := by
      unfold guessed
      rw [hset]
      simp only [decide_eq_true_eq]
      refine ⟨hv.1, hv.2, ?_⟩
      rw [List.getElem?_set_self (by rw [h26]; omega)]
    simp [this]
  · have hne : ¬ (some w = some ch) := fun h2 => hc (Option.some.inj h2)
    have hsame : guessed r.1.game w = guessed s.game w := by
      unfold guessed
      rw [hset]
      by_cases hr : 97 ≤ w.toNat ∧ w.toNat ≤ 122
      · have hidx : ch.toNat - 97 ≠ w.toNat - 97 := by
          intro heq
          apply hc
          apply char_toNat_inj
          omega
        rw [List.getElem?_set_ne hidx]
      · have : ¬ (97 ≤ w.toNat ∧ w.toNat ≤ 122 ∧
            (s.game.letters_guessed.set (ch.toNat - 97) 1)[w.toNat - 97]? = some 1) :=
          fun h2 => hr ⟨h2.1, h2.2.1⟩
        have h3 : ¬ (97 ≤ w.toNat ∧ w.toNat ≤ 122 ∧
            s.game.letters_guessed[w.toNat - 97]? = some 1) :=
          fun h2 => hr ⟨h2.1, h2.2.1⟩
        simp only [this, h3]
    rw [if_neg hne, hpos i w hiw, hsame]

/-! ## Promotion -/

theorem remove_player_eq_erase {l : List client} {fd : Int} {p : client}
    (h : deref l fd = some p) : remove_player l fd = l.erase p := by
  induction l with
  | nil => simp [deref] at h
  | cons c t ih =>
    unfold remove_player
    by_cases hc : c.fd = fd
    · have : p = c := by
        simp [deref, List.find?, hc] at h
        exact h.symm
      subst this
      simp [hc]
    · have h2 : deref t fd = some p := by
        simpa [deref, List.find?, hc] using h
      have hne : ¬ (c = p) := by
        intro heq
        rw [heq] at hc
        exact hc (deref_fd h2)
      rw [if_neg hc, ih h2, List.erase_cons_tail]
      simpa using hne

theorem promote_ok {e : env} (hok : ∀ n, e.ok n = true) {s : server} (p : client)
    (hlive : turn_live s.game) :
    ∃ s1, promote e s p = some s1 ∧
      s1.new_players = remove_player s.new_players p.fd ∧
      s1.game.head = { p with in_ptr := 0 } :: s.game.head := by
  unfold promote
  obtain ⟨s1, h1, h2⟩ := broadcast_loop_ok hok (message.joined p.name)
    ({ p with in_ptr := 0 } :: s.game.head)
    { s with
      new_players := remove_player s.new_players p.fd
      game := { s.game with head := { p with in_ptr := 0 } :: s.game.head } }
  have hb : broadcast e
      { s with
        new_players := remove_player s.new_players p.fd
        game := { s.game with head := { p with in_ptr := 0 } :: s.game.head } }
      (message.joined p.name) = some s1 := h1
  rw [hb]
  simp only [Option.some_bind]
  have hhead1 : s1.game.head = { p with in_ptr := 0 } :: s.game.head := by rw [h2.1]
  have hturn1 : s1.game.has_next_turn = s.game.has_next_turn := by rw [h2.1]
  have hnp1 : s1.new_players = remove_player s.new_players p.fd := h2.2
  -- the first turn is seated if nobody holds it
  have hseat : ∃ s2, (if s1.game.has_next_turn = none then
        (advance_turn s1.game).map (fun g => { s1 with game := g }) else some s1) = some s2 ∧
      s2.game.head = s1.game.head ∧ s2.new_players = s1.new_players ∧ turn_live s2.game := by
    by_cases hn : s1.game.has_next_turn = none
    · rw [if_pos hn]
      have : advance_turn s1.game = some { s1.game with has_next_turn := some p.fd } := by
        simp only [advance_turn, hhead1, hn]
      rw [this]
      refine ⟨_, rfl, rfl, rfl, ?_⟩
      rw [turn_live_iff]
      intro t ht
      simp only [Option.some.injEq] at ht
      rw [← ht, hhead1]
      simp [fds]
    · rw [if_neg hn]
      refine ⟨s1, rfl, rfl, rfl, ?_⟩
      rw [turn_live_iff, hhead1, hturn1]
      intro t ht
      have := (turn_live_iff _).1 hlive t ht
      simp only [fds, List.map_cons, List.mem_cons]
      exact Or.inr this
  obtain ⟨s2, h3, hhead2, hnp2, hlive2⟩ := hseat
  rw [h3]
  simp only [Option.some_bind]
  have hp2 : (deref s2.game.head p.fd).isSome := by
    rw [deref_isSome_iff, hhead2, hhead1]
    simp [fds]
  rw [write_or_remove_ok hok _ hp2]
  simp only [Option.some_bind]
  obtain ⟨s4, h4, h5⟩ := prompt_turn_ok (s := (write e s2 p.fd (status_message s2.game)).2)
    hok p.fd hlive2
  rw [h4]
  simp only [Option.some_bind]
  have hlive4 : turn_live s4.game := by rw [h5.1]; exact hlive2
  obtain ⟨s5, h6, h7⟩ := announce_turn_ok hok hlive4
  refine ⟨s5, h6, ?_, ?_⟩
  · rw [h7.2, h5.2]
    exact hnp2.trans hnp1
  · rw [h7.1, h5.1]
    exact hhead2.trans hhead1

/-! ## Calls of `init_game` in the trace -/

theorem resets_of_out {s s1 : server} {l : List event} (h : s1.out = s.out ++ l)
    (hl : event.init_game ∉ l) : resets s1 = resets s := by
  unfold resets
  rw [h, List.count_append, List.count_eq_zero.2 hl]
  rfl

theorem write_or_remove_resets {e : env} {s s1 : server} {p : Int} {m : message}
    (h : write_or_remove e s p m = some s1) : resets s1 = resets s :=
  resets_of_out (write_or_remove_round h).2.2 (by simp)

theorem broadcast_loop_resets {e : env} {m : message} {l : List client} {s s1 : server}
    (h : broadcast_loop e m l s = some s1) : resets s1 = resets s :=
  resets_of_out (broadcast_loop_frame h).2.2 (by simp)

theorem broadcast_without_inturn_loop_resets {e : env} {m : message} {l : List client}
    {s s1 : server} (h : broadcast_without_inturn_loop e m l s = some s1) :
    resets s1 = resets s :=
  resets_of_out (broadcast_without_inturn_loop_frame h).2.2 (by simp)

theorem announce_turn_resets {e : env} {s s1 : server} (h : announce_turn e s = some s1) :
    resets s1 = resets s := by
  unfold announce_turn at h
  split at h
  · cases h; rfl
  · split at h
    · cases h
    · exact broadcast_without_inturn_loop_resets h

theorem prompt_turn_resets {e : env} {s s1 : server} {p : Int}
    (h : prompt_turn e s p = some s1) : resets s1 = resets s := by
  unfold prompt_turn at h
  split at h
  · cases h; rfl
  · rename_i t _
    split at h
    · cases h
    · split at h
      · cases h
        exact resets_of_out (l := [event.write t message.you_guess]) rfl (by simp)
      · obtain ⟨g, -, h2⟩ := map_eq_some_elim h
        cases h2
        exact resets_of_out (l := [event.write t message.you_guess]) rfl (by simp)

theorem after_active_resets {e : env} {s s1 : server} {p : Int}
    (h : after_active e s p = some s1) : resets s1 = resets s := by
  unfold after_active at h
  obtain ⟨s2, h1, h2⟩ := bind_eq_some_elim h
  rw [prompt_turn_resets h2, announce_turn_resets h1]

theorem end_of_round_resets {e : env} {s s1 : server} {p : Int} {over : Bool}
    (h : end_of_round e s p = some (s1, over)) : resets s1 = resets s := by
  by_cases hw : s.game.word = s.game.guess
  · obtain ⟨s_a, s_b, pc, h1, h2, -, h4, -⟩ := end_of_round_win hw h
    rw [broadcast_without_inturn_loop_resets h4, write_or_remove_resets h2,
      write_or_remove_resets h1]
  · rcases end_of_round_no_win hw h with ⟨-, hb, -⟩ | ⟨-, hs, -⟩
    · exact broadcast_loop_resets hb
    · rw [hs]

theorem init_game_resets (c : config) (e : env) (s : server) :
    resets (init_game c e s) = resets s + 1 := by
  unfold resets init_game
  simp

theorem apply_guess_resets {e : env} {s : server} {p : Int} {ch : Char} {r : server × Bool}
    (h : apply_guess e s p ch = some r) : resets r.1 = resets s := by
  unfold apply_guess at h
  split at h
  · obtain ⟨s2, h1, h2⟩ := map_eq_some_elim h
    cases h2
    exact (write_or_remove_resets h1 : resets s2 = resets s)
  · cases h; rfl

/-- A guess handled by `finish_guess` without a call of `init_game` leaves the
round as it was. -/
theorem finish_guess_same_round {c : config} {e : env} {s s1 : server} {p : Int} {ch : Char}
    {gf : Bool} (h : finish_guess c e s p ch gf = some s1) (hr : resets s1 = resets s) :
    same_round s.game s1.game := by
  obtain ⟨pc, s_e, s_r, over, s_b, h1, h2, h3, h4, h5⟩ := finish_guess_some h
  have a := write_or_remove_resets h2
  have b := end_of_round_resets h3
  have d := broadcast_loop_resets h4
  obtain ⟨f1, -, -, f4⟩ := advance_or_not_frame h5
  have f : resets s1 = resets s_b := by unfold resets; rw [f4]
  cases over with
  | true =>
    simp only [if_true] at d
    rw [init_game_resets] at d
    omega
  | false =>
    simp only [Bool.false_eq_true, if_false] at h4
    exact same_round_trans (write_or_remove_round h2).1
      (same_round_trans (end_of_round_shrinks h3).1.1
        (same_round_trans (broadcast_loop_frame h4).1.1 f1))

theorem is_valid_letter {inbuf : List Char} (h : is_valid inbuf = true) :
    97 ≤ (inbuf.headD (Char.ofNat 0)).toNat ∧ (inbuf.headD (Char.ofNat 0)).toNat ≤ 122 := by
  unfold is_valid at h
  simp only [decide_eq_true_eq] at h
  exact h.2

/-- Input of an active player handled without a call of `init_game` keeps the
word and the relation between masked progress and guessed letters. -/
theorem active_input_masked {c : config} {ph : Char} {e : env} {s s1 : server} {p : client}
    {data : List Char} (h : active_input c e s p data = some s1)
    (hr : resets s1 = resets s) (hm : masked_ok ph s.game) :
    s1.game.word = s.game.word ∧ masked_ok ph s1.game := by
  unfold active_input at h
  split at h
  · cases h
  · obtain ⟨g, h1, h2⟩ := map_eq_some_elim h
    cases h2
    have := remove_active_player_round h1
    exact ⟨this.1, masked_ok_round this hm⟩
  · cases h
    exact ⟨rfl, masked_ok_round (same_round_refl _) hm⟩
  · rename_i p1 k hread
    have hrej : ∀ m, write_or_remove e
        { s with game := { s.game with head := set_client s.game.head { p1 with in_ptr := 0 } } }
        p.fd m = some s1 → s1.game.word = s.game.word ∧ masked_ok ph s1.game := by
      intro m hw
      have := (write_or_remove_round hw).1
      exact ⟨this.1, masked_ok_round this hm⟩
    split at h
    · exact hrej _ h
    · split at h
      · rename_i hv
        unfold handle_guess at h
        obtain ⟨r, h1, h2⟩ := bind_eq_some_elim h
        have hm0 : masked_ok ph ({ s with game := { s.game with
            head := set_client s.game.head { p1 with in_ptr := 0 } } } : server).game :=
          masked_ok_round ⟨rfl, rfl, rfl, rfl⟩ hm
        have hm1 : masked_ok ph r.1.game := apply_guess_masked (is_valid_letter hv) hm0 h1
        have hw1 := (apply_guess_round hm0.1 h1).1
        have hr1 : resets s1 = resets r.1 := by
          rw [hr, apply_guess_resets h1]; rfl
        have hsame := finish_guess_same_round h2 hr1
        exact ⟨by rw [hsame.1, hw1], masked_ok_round hsame hm1⟩
      · exact hrej _ h

/-- An event handled without a call of `init_game` keeps the word and the
relation between masked progress and guessed letters. -/
theorem step_masked {c : config} {ph : Char} {s s1 : server} (h : step c s s1)
    (hr : resets s1 = resets s) (hm : masked_ok ph s.game) :
    s1.game.word = s.game.word ∧ masked_ok ph s1.game := by
  cases h with
  | accept e clientfd junk p h =>
    unfold accept_client at h
    split at h
    · cases h; exact ⟨rfl, hm⟩
    · split at h
      · cases h
      · split at h
        · cases h
          exact ⟨rfl, masked_ok_round ⟨rfl, rfl, rfl, rfl⟩ hm⟩
        · cases h
  | input e cur_fd data h =>
    unfold handle_input at h
    split at h
    · obtain ⟨s2, h1, h2⟩ := bind_eq_some_elim h
      have d := (after_active_shrinks h2).1
      have hr2 : resets s2 = resets s := by rw [← after_active_resets h2, hr]
      obtain ⟨a, b⟩ := active_input_masked h1 hr2 hm
      exact ⟨by rw [d.1, a], masked_ok_round d b⟩
    · split at h
      · have a := (lobby_input_step h).1
        exact ⟨a.1, masked_ok_round a hm⟩
      · cases h; exact ⟨rfl, hm⟩

/-! ## Guess handling and promotion on the runs without undefined behaviour -/

/-- A win, as far as the handling of the guess returns: the turn holder `p`
makes a valid guess `ch` after which the masked progress equals the word
(`r` is the state once the guess is applied).
When every write succeeds the guess is handled to the end; and on every run
that comes to an end, whatever the outcome of the writes, the server does
the following and nothing else, in this order: it writes the echo, "The word
was ..." and "Game over! You win!" to `p`; it writes "Game over! <name of p>
win!" to every active player other than `p`; it calls `init_game` once; it
writes the status line of the new round to the active players left.  The
round afterwards is the one `init_game` built: the word the dictionary
returned, masked progress all placeholders, no letter guessed, the full
budget. -/
theorem win_sequence (c : config) (e : env) (s : server) (p : Int) (ch : Char)
    (r : server × Bool)
    (hnd : (fds s.game.head).Nodup)
    (hturn : s.game.has_next_turn = some p)
    (hp : (deref s.game.head p).isSome)
    (hr : apply_guess e s p ch = some r)
    (hwin : r.1.game.word = r.1.game.guess) :
    ((∀ n, e.ok n = true) → (handle_guess c e s p ch).isSome) ∧
    ∀ s1, handle_guess c e s p ch = some s1 →
      ∃ (pc : client) (l : List client),
        deref s.game.head p = some pc ∧ l.Sublist s.game.head ∧
        s1.out = r.1.out ++
          (event.write p (message.guess_echo pc.name ch) ::
            event.write p (message.word_was r.1.game.word) ::
            event.write p message.you_win ::
            (others s.game.head p).map (fun q => event.write q.fd (message.winner pc.name))) ++
          event.init_game :: l.map (fun q => event.write q.fd (status_message s1.game)) ∧
        s1.game.word = e.pick (r.1.out.length + 3 + (others s.game.head p).length) ∧
        s1.game.guess = List.replicate s1.game.word.length c.placeholder ∧
        s1.game.letters_guessed = List.replicate 26 0 ∧
        s1.game.guesses_left = c.MAX_GUESSES := by
  have hhg : handle_guess c e s p ch = finish_guess c e r.1 p ch r.2 := by
    simp only [handle_guess, hr, Option.some_bind]
  refine ⟨fun hok => ?_, fun s1 h => ?_⟩
  · obtain ⟨r2, h1, h2, h3, -, -⟩ := apply_guess_ok hok ch hp
    rw [hr] at h1
    cases h1
    obtain ⟨s1, h4, -⟩ := finish_guess_ok c hok ch r.2 (by rw [h2]; exact hp)
      (by rw [h3]; exact hturn)
    rw [hhg, h4]; rfl
  · rw [hhg] at h
    obtain ⟨pc, s_e, s_r, over, s_b, h1, h2, h3, h4, h5⟩ := finish_guess_some h
    -- the guess left the players as they were
    obtain ⟨a1, a2, -⟩ := apply_guess_still hr hnd (by simp [h1])
    have hnd1 : (fds r.1.game.head).Nodup := by rw [a1]; exact hnd
    -- the three writes to the guesser succeeded
    have hw : s_e.game.word = s_e.game.guess := by
      have := (write_or_remove_round h2).1
      rw [this.1, this.2.1]; exact hwin
    obtain ⟨s_a, s_c, pc2, b1, b2, b3, b4, b5⟩ := end_of_round_win hw h3
    have e1 := write_or_remove_still h2 hnd1 (write_or_remove_deref b1)
    have hnd2 : (fds s_e.game.head).Nodup := by rw [e1]; exact hnd1
    have e2 := write_or_remove_still b1 hnd2 (write_or_remove_deref b2)
    have hnd3 : (fds s_a.game.head).Nodup := by rw [e2]; exact hnd2
    have e3 := write_or_remove_still b2 hnd3 (by simp [b3])
    have hgc : s_c.game = r.1.game := by rw [e3, e2, e1]; rfl
    have hpc : pc2 = pc := by
      rw [hgc] at b3
      rw [b3] at h1
      cases h1; rfl
    have hoc : s_c.out = r.1.out ++ [event.write p (message.guess_echo pc.name ch),
        event.write p (message.word_was r.1.game.word), event.write p message.you_win] := by
      rw [e3, e2, e1]
      simp [write]
    -- the announcement to the others
    obtain ⟨c1, c2, c3⟩ := broadcast_without_inturn_loop_frame b4
    have hturn_c : s_c.game.has_next_turn = some p := by rw [hgc, a2]; exact hturn
    rw [hturn_c, others_eq_filter, hgc, a1, hpc] at c3
    -- the reset and the status line
    subst b5
    simp only [if_true] at h4 h5
    obtain ⟨d1, -, d3⟩ := broadcast_loop_frame h4
    obtain ⟨f1, f2, -, f4⟩ := advance_or_not_frame (b := (r.2 || true)) (by simpa using h5)
    have hround : same_round (init_game c e s_r).game s1.game := same_round_trans d1.1 f1
    have hst : status_message (init_game c e s_r).game = status_message s1.game :=
      (status_message_round hround).symm
    have hsub : (init_game c e s_r).game.head.Sublist s.game.head := by
      have : s_r.game.head.Sublist s_c.game.head := c1.2.2
      rw [hgc, a1] at this
      exact this
    refine ⟨pc, (init_game c e s_r).game.head, by rw [← a1]; exact h1, hsub,
      ?_, ?_, ?_, ?_, ?_⟩
    · rw [f4, d3, ← hst]
      simp only [init_game, c3, hoc]
      simp
    · rw [hround.1]
      simp only [init_game, c3, hoc]
      congr 1
      simp
      omega
    · rw [hround.2.1, hround.1]
      rfl
    · rw [hround.2.2.1]; rfl
    · rw [hround.2.2.2]; rfl

theorem win_sequence_witness :
    (fds cat_server_ca.game.head).Nodup ∧
    cat_server_ca.game.has_next_turn = some 4 ∧
    (deref cat_server_ca.game.head 4).isSome ∧
    apply_guess all_ok cat_server_ca 4 't' = some cat_server_cat ∧
    cat_server_cat.1.game.word = cat_server_cat.1.game.guess ∧
    ((∀ n, all_ok.ok n = true) →
      (handle_guess small_config all_ok cat_server_ca 4 't').isSome) ∧
    ∀ s1, handle_guess small_config all_ok cat_server_ca 4 't' = some s1 →
      ∃ (pc : client) (l : List client),
        deref cat_server_ca.game.head 4 = some pc ∧ l.Sublist cat_server_ca.game.head ∧
        s1.out = cat_server_cat.1.out ++
          (event.write 4 (message.guess_echo pc.name 't') ::
            event.write 4 (message.word_was cat_server_cat.1.game.word) ::
            event.write 4 message.you_win ::
            (others cat_server_ca.game.head 4).map
              (fun q => event.write q.fd (message.winner pc.name))) ++
          event.init_game :: l.map (fun q => event.write q.fd (status_message s1.game)) ∧
        s1.game.word =
          all_ok.pick
            (cat_server_cat.1.out.length + 3 + (others cat_server_ca.game.head 4).length) ∧
        s1.game.guess = List.replicate s1.game.word.length small_config.placeholder ∧
        s1.game.letters_guessed = List.replicate 26 0 ∧
        s1.game.guesses_left = small_config.MAX_GUESSES :=
  ⟨by decide, rfl, by decide, by decide, by decide,
    win_sequence small_config all_ok cat_server_ca 4 't' cat_server_cat (by decide) rfl
      (by decide) (by decide) (by decide)⟩

/-- A miss or a partial hit, as far as the handling of the guess returns: the turn
holder `p` makes a valid guess `ch` after which the masked
progress differs from the word (`r` is the state once the guess is
applied).  When every write succeeds the guess is handled to the end; and
on every run that comes to an end, after the echo of the guess: if
`guesses_left` is zero, "No guesses left. Game over." is written to every
active player, then `init_game` is called and the status line of the new
round is written; if `guesses_left` is not zero, the status line of the
round is written and nothing else, the round is as the guess left it.
Moreover, when `MAX_GUESSES` is positive and a run starts with guesses left,
there are guesses left in every state of the run. -/
theorem loss_iff_no_guesses_left (c : config) (e : env) (s : server) (p : Int) (ch : Char)
    (r : server × Bool)
    (hturn : s.game.has_next_turn = some p)
    (hp : (deref s.game.head p).isSome)
    (hr : apply_guess e s p ch = some r)
    (hnowin : r.1.game.word ≠ r.1.game.guess)
    (s_a s_b : server)
    (hbudget : 0 < c.MAX_GUESSES)
    (hstart : 0 < s_a.game.guesses_left)
    (hrun : runs c s_a s_b) :
    (((∀ n, e.ok n = true) → (handle_guess c e s p ch).isSome) ∧
      ∀ s1, handle_guess c e s p ch = some s1 →
        ∃ (pc : client) (s_e : server), deref r.1.game.head p = some pc ∧
          write_or_remove e r.1 p (message.guess_echo pc.name ch) = some s_e ∧
          (r.1.game.guesses_left = 0 →
            ∃ l : List client, l.Sublist s_e.game.head ∧
              s1.out = s_e.out ++
                s_e.game.head.map (fun q => event.write q.fd message.no_guesses) ++
                event.init_game ::
                  l.map (fun q => event.write q.fd (status_message s1.game)) ∧
              s1.game.word = e.pick (s_e.out.length + s_e.game.head.length) ∧
              s1.game.guess = List.replicate s1.game.word.length c.placeholder ∧
              s1.game.letters_guessed = List.replicate 26 0 ∧
              s1.game.guesses_left = c.MAX_GUESSES) ∧
          (r.1.game.guesses_left ≠ 0 →
            s1.out = s_e.out ++
              s_e.game.head.map (fun q => event.write q.fd (status_message r.1.game)) ∧
            same_round r.1.game s1.game)) ∧
    0 < s_b.game.guesses_left := by
  have hhg : handle_guess c e s p ch = finish_guess c e r.1 p ch r.2 := by
    simp only [handle_guess, hr, Option.some_bind]
  refine ⟨⟨fun hok => ?_, fun s1 h => ?_⟩, (runs_invariants hrun).2 hbudget hstart⟩
  · obtain ⟨r2, h1, h2, h3, -, -⟩ := apply_guess_ok hok ch hp
    rw [hr] at h1
    cases h1
    obtain ⟨s1, h4, -⟩ := finish_guess_ok c hok ch r.2 (by rw [h2]; exact hp)
      (by rw [h3]; exact hturn)
    rw [hhg, h4]; rfl
  · rw [hhg] at h
    exact finish_guess_no_win hnowin h

theorem loss_iff_no_guesses_left_witness :
    cat_server.game.has_next_turn = some 4 ∧
    (deref cat_server.game.head 4).isSome ∧
    apply_guess all_ok cat_server 4 'x' = some cat_server_x ∧
    cat_server_x.1.game.word ≠ cat_server_x.1.game.guess ∧
    0 < small_config.MAX_GUESSES ∧
    0 < cat_server.game.guesses_left ∧
    runs small_config cat_server cat_server_a ∧
    (((∀ n, all_ok.ok n = true) →
        (handle_guess small_config all_ok cat_server 4 'x').isSome) ∧
      ∀ s1, handle_guess small_config all_ok cat_server 4 'x' = some s1 →
        ∃ (pc : client) (s_e : server), deref cat_server_x.1.game.head 4 = some pc ∧
          write_or_remove all_ok cat_server_x.1 4 (message.guess_echo pc.name 'x') = some s_e ∧
          (cat_server_x.1.game.guesses_left = 0 →
            ∃ l : List client, l.Sublist s_e.game.head ∧
              s1.out = s_e.out ++
                s_e.game.head.map (fun q => event.write q.fd message.no_guesses) ++
                event.init_game ::
                  l.map (fun q => event.write q.fd (status_message s1.game)) ∧
              s1.game.word = all_ok.pick (s_e.out.length + s_e.game.head.length) ∧
              s1.game.guess = List.replicate s1.game.word.length small_config.placeholder ∧
              s1.game.letters_guessed = List.replicate 26 0 ∧
              s1.game.guesses_left = small_config.MAX_GUESSES) ∧
          (cat_server_x.1.game.guesses_left ≠ 0 →
            s1.out = s_e.out ++
              s_e.game.head.map
                (fun q => event.write q.fd (status_message cat_server_x.1.game)) ∧
            same_round cat_server_x.1.game s1.game)) ∧
    0 < cat_server_a.game.guesses_left :=
  ⟨rfl, by decide, by decide, by decide, by decide, by decide,
    Relation.ReflTransGen.single (step.input all_ok 4 line_a rfl),
    loss_iff_no_guesses_left small_config all_ok cat_server 4 'x' cat_server_x rfl (by decide)
      (by decide) (by decide) cat_server cat_server_a (by decide) (by decide)
      (Relation.ReflTransGen.single (step.input all_ok 4 line_a rfl))⟩

/-- Promotion in a state whose turn reference is `NULL` or an active player: every
write succeeds and the new player `p` completes a line whose name
is not empty and not the name of an active player.  Then the new players
afterwards are those of before with `p` deleted, the active players are `p`
(with the name entered) followed by those of before; and if no descriptor
was in both lists before, none is in both after. -/
theorem promotion_moves_one (c : config) (e : env) (s : server) (cur_fd : Int)
    (p p1 : client) (k : Nat) (data : List Char)
    (hok : ∀ n, e.ok n = true) (hlive : turn_live s.game)
    (hnp : deref s.game.head cur_fd = none)
    (hp : deref s.new_players cur_fd = some p)
    (hr : read_input c p data = some (read_result.line p1 k))
    (hne : (store_name c p1 k).name ≠ [])
    (hnew : (store_name c p1 k).name ∉ names s.game.head) :
    (store_name c p1 k).fd = p.fd ∧
    ∃ s1, handle_input c e s cur_fd data = some s1 ∧
      s1.new_players = s.new_players.erase p ∧
      s1.game.head = { store_name c p1 k with in_ptr := 0 } :: s.game.head ∧
      ((fds s.new_players).Nodup → (∀ d ∈ fds s.new_players, d ∉ fds s.game.head) →
        ∀ d ∈ fds s1.new_players, d ∉ fds s1.game.head) := by
  have hfd : p.fd = cur_fd := deref_fd hp
  have hfd2 : (store_name c p1 k).fd = p.fd := by rw [store_name_fd, read_input_fd hr]
  refine ⟨hfd2, ?_⟩
  have hck : ¬ (check_name s.game (store_name c p1 k).name = true) := by
    rw [check_name_iff]; exact hnew
  obtain ⟨s1, h1, h2, h3⟩ := promote_ok hok (store_name c p1 k) hlive
  have hlobby : lobby_input c e s p data = some s1 := by
    simp only [lobby_input, hr, hne, if_false, hck, h1, Bool.false_eq_true]
  refine ⟨s1, by simp only [handle_input, hnp, hp, hlobby], ?_, h3, fun hnd hdis d hd => ?_⟩
  · rw [h2, hfd2, hfd]
    exact remove_player_eq_erase hp
  · rw [h2, hfd2, hfd] at hd
    rw [h3]
    simp only [fds, List.map_cons, List.mem_cons, not_or]
    have hsub : (fds (remove_player s.new_players cur_fd)).Sublist (fds s.new_players) :=
      (remove_player_sublist _ _).map _
    refine ⟨?_, hdis d (hsub.subset hd)⟩
    intro hdeq
    rw [hdeq, hfd2, hfd] at hd
    exact remove_player_not_mem hnd hd
theorem promotion_moves_one_witness :
    (∀ n, all_ok.ok n = true) ∧ turn_live lobby_server.game ∧
    deref lobby_server.game.head 7 = none ∧
    deref lobby_server.new_players 7 = some dan ∧
    read_input small_config dan line_dan = some (read_result.line dan_named 3) ∧
    (store_name small_config dan_named 3).name ≠ [] ∧
    (store_name small_config dan_named 3).name ∉ names lobby_server.game.head ∧
    (store_name small_config dan_named 3).fd = dan.fd ∧
    ∃ s1, handle_input small_config all_ok lobby_server 7 line_dan = some s1 ∧
      s1.new_players = lobby_server.new_players.erase dan ∧
      s1.game.head =
        { store_name small_config dan_named 3 with in_ptr := 0 } :: lobby_server.game.head ∧
      ((fds lobby_server.new_players).Nodup →
        (∀ d ∈ fds lobby_server.new_players, d ∉ fds lobby_server.game.head) →
        ∀ d ∈ fds s1.new_players, d ∉ fds s1.game.head) :=
  ⟨fun _ => rfl, by decide, rfl, rfl, rfl, by decide, by decide,
    promotion_moves_one small_config all_ok lobby_server 7 dan dan_named 3 line_dan
      (fun _ => rfl) (by decide) rfl rfl rfl (by decide) (by decide)⟩

/-! ## The claims -/

/-- C1: on a game whose masked progress is as long as the word, a guess `ch` of an
active player is applied as follows (lines 229-256, before any reset): if
`ch` occurs in the word, the masked progress holds `ch` wherever the word
does and is unchanged elsewhere, and `guesses_left` is unchanged; if it does
not occur, masked progress is unchanged and `guesses_left` is one less.  No
assumption is made on the letters guessed before or on the writes. -/
theorem apply_guess_effect (e : env) (s : server) (p : Int) (ch : Char)
    (hlen : s.game.guess.length = s.game.word.length)
    (hp : (deref s.game.head p).isSome) :
    ∃ s1 gf, apply_guess e s p ch = some (s1, gf) ∧ s1.game.word = s.game.word ∧
      (ch ∈ s.game.word →
        s1.game.guess.length = s.game.guess.length ∧
        (∀ i, i < s.game.word.length →
          s1.game.guess[i]? =
            if s.game.word[i]? = some ch then some ch else s.game.guess[i]?) ∧
        s1.game.guesses_left = s.game.guesses_left) ∧
      (ch ∉ s.game.word →
        s1.game.guess = s.game.guess ∧ s1.game.guesses_left = s.game.guesses_left - 1) := by
  by_cases hin : ch ∈ s.game.word
  · have hne : ¬ first_index ch s.game.word = s.game.word.length := by
      rw [first_index_eq_length]; exact fun h => h hin
    refine ⟨{ s with
        game :=
          { s.game with
            guess := reveal s.game.word s.game.guess ch (first_index ch s.game.word)
            letters_guessed := s.game.letters_guessed.set (ch.toNat - 97) 1 } }, false,
      by simp only [apply_guess, hne, if_false], rfl, ?_, fun h => absurd hin h⟩
    intro _
    exact ⟨reveal_length _ _ _ _, fun i hi => reveal_getElem? ch _ _ hlen i hi, rfl⟩
  · have heq : first_index ch s.game.word = s.game.word.length :=
      (first_index_eq_length _ _).2 hin
    have hw := write_or_remove_isSome (e := e) (m := message.not_in_word ch) hp
    cases hr : write_or_remove e s p (message.not_in_word ch) with
    | none => simp [hr] at hw
    | some s1 =>
      have hf := (write_or_remove_round hr).1
      refine ⟨{ s1 with
          game :=
            { s1.game with
              guesses_left := s1.game.guesses_left - 1
              letters_guessed := s1.game.letters_guessed.set (ch.toNat - 97) 1 } }, true,
        by simp only [apply_guess, heq, if_true, hr, Option.map_some'], hf.1,
        fun h => absurd h hin, fun _ => ⟨hf.2.1, ?_⟩⟩
      simp [hf.2.2.2]

theorem apply_guess_effect_witness :
    cat_server.game.guess.length = cat_server.game.word.length ∧
    (deref cat_server.game.head 4).isSome ∧
    ∃ s1 gf, apply_guess all_ok cat_server 4 'a' = some (s1, gf) ∧
      s1.game.word = cat_server.game.word ∧
      ('a' ∈ cat_server.game.word →
        s1.game.guess.length = cat_server.game.guess.length ∧
        (∀ i, i < cat_server.game.word.length →
          s1.game.guess[i]? =
            if cat_server.game.word[i]? = some 'a' then some 'a'
            else cat_server.game.guess[i]?) ∧
        s1.game.guesses_left = cat_server.game.guesses_left) ∧
      ('a' ∉ cat_server.game.word →
        s1.game.guess = cat_server.game.guess ∧
          s1.game.guesses_left = cat_server.game.guesses_left - 1) :=
  ⟨by decide, by decide, apply_guess_effect all_ok cat_server 4 'a' (by decide) (by decide)⟩

/-- C2 (as stated, refuted): every write succeeds, `ann` holds the turn and is
followed by `bob`; `ann` sends the valid guess "a", a letter of "cat" that does
not complete the word.  The flag `guess_failed` stays 0, `advance_turn` is
not called, and the turn is still with `ann`. -/
theorem found_letter_keeps_turn :
    (∀ n, all_ok.ok n = true) ∧ cat_server.game.has_next_turn = some ann.fd ∧
    successor cat_server.game.head ann.fd = some bob.fd ∧
    ∃ s1, handle_input small_config all_ok cat_server ann.fd line_a = some s1 ∧
      s1.game.guess = ['_', 'a', '_'] ∧ s1.game.has_next_turn = some ann.fd := by
  refine ⟨fun _ => rfl, rfl, by decide, _, rfl, rfl, rfl⟩

/-- C2 (amended): every write succeeds and a completed line arrives from the
active player `cur_fd`.  If the sender does not hold the turn or the line is
not a valid guess, the turn reference is unchanged.  If the sender holds the
turn and the line is a valid guess, the turn goes to the sender's cyclic
successor when the letter is missed or the guess ends the round (masked
word complete, or no guesses left), and stays with the sender when the
letter is found and the round goes on. -/
theorem turn_after_line (c : config) (e : env) (s : server) (cur_fd : Int)
    (p p1 : client) (k : Nat) (data : List Char)
    (hok : ∀ n, e.ok n = true)
    (hp : deref s.game.head cur_fd = some p)
    (hlive : turn_live s.game)
    (hread : data.length ≤ c.MAX_BUF - p.in_ptr)
    (hr : read_input c p data = some (read_result.line p1 k)) :
    ∃ s1, handle_input c e s cur_fd data = some s1 ∧
      ((s.game.has_next_turn ≠ some cur_fd ∨ is_valid p1.inbuf = false) →
        s1.game.has_next_turn = s.game.has_next_turn) ∧
      ((s.game.has_next_turn = some cur_fd ∧ is_valid p1.inbuf = true) →
        ∃ r,
          apply_guess e (line_taken s p data) cur_fd (p1.inbuf.headD (Char.ofNat 0)) = some r ∧
          s1.game.has_next_turn =
            if p1.inbuf.headD (Char.ofNat 0) ∉ s.game.word ∨ r.1.game.word = r.1.game.guess ∨
                r.1.game.guesses_left = 0 then
              successor s.game.head cur_fd
            else some cur_fd) := by
  have hfd : p.fd = cur_fd := deref_fd hp
  have hin : cur_fd ∈ fds s.game.head := (deref_isSome_iff _ _).1 (by simp [hp])
  obtain ⟨hL1, hL2, hL3, hL4, hL5⟩ := line_taken_players s p data
  have hinL : (deref (line_taken s p data).game.head cur_fd).isSome := by
    rw [deref_isSome_iff, hL1]; exact hin
  have hliveL : turn_live (line_taken s p data).game := by
    rw [turn_live_iff, hL1, hL2]; exact (turn_live_iff _).1 hlive
  have hact := active_input_line e s hread hr
  rw [hfd] at hact
  have hrej : ∀ m, (s.game.has_next_turn ≠ some cur_fd ∨ is_valid p1.inbuf = false) →
      active_input c e s p data = write_or_remove e (line_taken s p data) cur_fd m →
      ∃ s1, handle_input c e s cur_fd data = some s1 ∧
        s1.game.has_next_turn = s.game.has_next_turn := by
    intro m _ ha
    rw [write_or_remove_ok hok _ hinL] at ha
    obtain ⟨s2, h2, h3⟩ := after_active_ok (s := (write e (line_taken s p data) cur_fd m).2)
      hok cur_fd hliveL
    refine ⟨s2, by simp only [handle_input, hp, ha, Option.some_bind, h2], ?_⟩
    rw [h3.1]; exact hL2
  by_cases hturn : s.game.has_next_turn = some cur_fd
  · by_cases hv : is_valid p1.inbuf = true
    · -- a valid guess of the turn holder
      have hturn2 : ¬ (s.game.has_next_turn ≠ some cur_fd) := fun h => h hturn
      rw [if_neg hturn2, if_pos hv] at hact
      obtain ⟨r, hr1, hr2, hr3, hr4, hr5⟩ :=
        apply_guess_ok hok (p1.inbuf.headD (Char.ofNat 0)) hinL
      have hinr : (deref r.1.game.head cur_fd).isSome := by rw [hr2]; exact hinL
      have htr : r.1.game.has_next_turn = some cur_fd := by rw [hr3, hL2]; exact hturn
      obtain ⟨s2, h2, h3, h4, h5⟩ := finish_guess_ok c hok (p1.inbuf.headD (Char.ofNat 0)) r.2
        hinr htr
      have hsucc : successor r.1.game.head cur_fd = successor s.game.head cur_fd := by
        unfold successor; rw [hr2, hL1]
      have hlive2 : turn_live s2.game := by
        rw [turn_live_iff, h3, hr2, hL1]
        intro t ht
        rw [h5] at ht
        split at ht
        · obtain ⟨u, hu1, hu2⟩ := successor_mem hin
          rw [hsucc, hu1] at ht
          cases ht; exact hu2
        · cases ht; exact hin
      obtain ⟨s3, h6, h7⟩ := after_active_ok hok cur_fd hlive2
      have hfail : r.2 = true ↔ p1.inbuf.headD (Char.ofNat 0) ∉ s.game.word := by
        rw [hr5]
        have : (line_taken s p data).game.word = s.game.word := hL4.1
        simp [this]
      refine ⟨s3, ?_, fun h => ?_, fun _ => ⟨r, hr1, ?_⟩⟩
      · simp only [handle_input, hp, hact, handle_guess, hr1, Option.some_bind, h2, h6]
      · rcases h with h | h
        · exact absurd hturn h
        · rw [hv] at h; cases h
      · rw [h7.1, h5, hsucc]
        simp only [hfail]
    · have hv2 : is_valid p1.inbuf = false := by simpa using hv
      have hturn2 : ¬ (s.game.has_next_turn ≠ some cur_fd) := fun h => h hturn
      rw [if_neg hturn2, if_neg hv] at hact
      obtain ⟨s1, h1, h2⟩ := hrej message.invalid_guess (Or.inr hv2) hact
      exact ⟨s1, h1, fun _ => h2, fun h => absurd h.2 hv⟩
  · rw [if_pos hturn] at hact
    obtain ⟨s1, h1, h2⟩ := hrej message.not_your_turn (Or.inl hturn) hact
    exact ⟨s1, h1, fun _ => h2, fun h => absurd h.1 hturn⟩

theorem turn_after_line_witness :
    (∀ n, all_ok.ok n = true) ∧
    deref cat_server.game.head 4 = some ann ∧
    turn_live cat_server.game ∧
    line_a.length ≤ small_config.MAX_BUF - ann.in_ptr ∧
    read_input small_config ann line_a = some (read_result.line ann_line 1) ∧
    ∃ s1, handle_input small_config all_ok cat_server 4 line_a = some s1 ∧
      ((cat_server.game.has_next_turn ≠ some 4 ∨ is_valid ann_line.inbuf = false) →
        s1.game.has_next_turn = cat_server.game.has_next_turn) ∧
      ((cat_server.game.has_next_turn = some 4 ∧ is_valid ann_line.inbuf = true) →
        ∃ r, apply_guess all_ok (line_taken cat_server ann line_a) 4
            (ann_line.inbuf.headD (Char.ofNat 0)) = some r ∧
          s1.game.has_next_turn =
            if ann_line.inbuf.headD (Char.ofNat 0) ∉ cat_server.game.word ∨
                r.1.game.word = r.1.game.guess ∨ r.1.game.guesses_left = 0 then
              successor cat_server.game.head 4
            else some 4) :=
  ⟨fun _ => rfl, rfl, by decide, by decide, rfl,
    turn_after_line small_config all_ok cat_server 4 ann ann_line 1 line_a (fun _ => rfl) rfl
      (by decide) (by decide) rfl⟩

/-- C3: the turn holder `ann` is the first of three active players, followed by
`bob`.  Removing `ann` with `remove_active_player` takes the branch
`prev == NULL`, which sets `has_next_turn` to `NULL`: the turn does not pass
to `bob`. -/
theorem remove_active_player_head_turn :
    cat_game.head = [ann, bob, cyd] ∧ cat_game.has_next_turn = some ann.fd ∧
    next_of cat_game.head ann.fd = some (some bob.fd) ∧
    ∃ g1, remove_active_player cat_game ann.fd = some g1 ∧ g1.has_next_turn = none := by
  refine ⟨rfl, rfl, by decide, _, rfl, rfl⟩

/-- C4: removing the first of three active players with `remove_active_player`
sets `head` to `NULL`: the list afterwards is empty, the two other players
are gone from it as well. -/
theorem remove_active_player_head_roster :
    cat_game.head = [ann, bob, cyd] ∧
    ∃ g1, remove_active_player cat_game ann.fd = some g1 ∧ g1.head = [] := by
  refine ⟨rfl, _, rfl, rfl⟩

/-- C5 (as stated, refuted): `dan` is a new player and submits "bob", the name of an
active player; the write of the reply "bob already exists, ..." fails.  The
session is removed from `new_players` (line 372): it is not promoted, and it
does not stay with the new players either. -/
theorem duplicate_name_reply_fails :
    fds lobby_server.new_players = [dan.fd] ∧
    (store_name small_config dan_line 3).name = bob.name ∧
    bob.name ∈ names lobby_server.game.head ∧
    first_fails.ok lobby_server.out.length = false ∧
    ∃ s1, handle_input small_config first_fails lobby_server dan.fd line_bob = some s1 ∧
      s1.game = lobby_server.game ∧ s1.new_players = [] := by
  refine ⟨rfl, by decide, by decide, rfl, _, rfl, rfl, rfl⟩

/-- C5 (amended): along every sequence of events that starts with no active
player, the names of the active players are pairwise distinct.  And a new
player whose submitted name, after truncation, is the name of an active
player is not promoted (the game, with its list of active players, is as
before); it stays with the new players when the reply is written with
success, and is removed from them when that write fails. -/
theorem names_stay_distinct (c : config) (s_a s_b : server)
    (hstart : s_a.game.head = []) (hrun : runs c s_a s_b)
    (e : env) (s : server) (cur_fd : Int) (p p1 : client) (k : Nat) (data : List Char)
    (hnp : deref s.game.head cur_fd = none)
    (hp : deref s.new_players cur_fd = some p)
    (hr : read_input c p data = some (read_result.line p1 k))
    (hdup : (store_name c p1 k).name ∈ names s.game.head) :
    (names s_b.game.head).Nodup ∧
    ∃ s1, handle_input c e s cur_fd data = some s1 ∧ s1.game = s.game ∧
      (e.ok s.out.length = true → fds s1.new_players = fds s.new_players) ∧
      (e.ok s.out.length = false → s1.new_players = remove_player s.new_players cur_fd) := by
  refine ⟨(runs_invariants hrun).1 (by rw [hstart]; exact List.nodup_nil), ?_⟩
  have hfd : (store_name c p1 k).fd = cur_fd := by
    rw [store_name_fd, read_input_fd hr, deref_fd hp]
  have key : ∀ m, lobby_input c e s p data = some (reject_name e s (store_name c p1 k) m) →
      ∃ s1, handle_input c e s cur_fd data = some s1 ∧ s1.game = s.game ∧
        (e.ok s.out.length = true → fds s1.new_players = fds s.new_players) ∧
        (e.ok s.out.length = false →
          s1.new_players = remove_player s.new_players cur_fd) := by
    intro m ha
    refine ⟨reject_name e s (store_name c p1 k) m, by simp only [handle_input, hnp, hp, ha],
      reject_name_step _ _ _ _, fun hok => ?_, fun hfail => ?_⟩
    · have hw : (write e s (store_name c p1 k).fd m).1 = true := hok
      simp only [reject_name, hw, if_true]
      exact fds_set_client _ _
    · have hw : (write e s (store_name c p1 k).fd m).1 = false := hfail
      unfold reject_name
      rw [hw, hfd]
      rfl
  by_cases hempty : (store_name c p1 k).name = []
  · apply key message.empty_name
    simp only [lobby_input, hr, hempty, if_true]
  · have hck : check_name s.game (store_name c p1 k).name = true :=
      (check_name_iff _ _).2 hdup
    apply key (message.name_exists (store_name c p1 k).name)
    simp only [lobby_input, hr, hempty, if_false, hck, if_true]

theorem names_stay_distinct_witness :
    empty_server.game.head = [] ∧ runs small_config empty_server one_waiting ∧
    deref lobby_server.game.head 7 = none ∧
    deref lobby_server.new_players 7 = some dan ∧
    read_input small_config dan line_bob = some (read_result.line dan_line 3) ∧
    (store_name small_config dan_line 3).name ∈ names lobby_server.game.head ∧
    (names one_waiting.game.head).Nodup ∧
    ∃ s1, handle_input small_config all_ok lobby_server 7 line_bob = some s1 ∧
      s1.game = lobby_server.game ∧
      (all_ok.ok lobby_server.out.length = true →
        fds s1.new_players = fds lobby_server.new_players) ∧
      (all_ok.ok lobby_server.out.length = false →
        s1.new_players = remove_player lobby_server.new_players 7) :=
  ⟨rfl,
    Relation.ReflTransGen.single
      (step.accept all_ok 7 (List.replicate 7 (Char.ofNat 0)) none rfl),
    rfl, rfl, rfl, by decide,
    names_stay_distinct small_config empty_server one_waiting rfl
      (Relation.ReflTransGen.single
        (step.accept all_ok 7 (List.replicate 7 (Char.ofNat 0)) none rfl))
      all_ok lobby_server 7 dan dan_line 3 line_bob rfl rfl rfl (by decide)⟩

/-- C6: `broadcast` on a state that satisfies the turn invariant, the write to the
turn holder `ann` failing: `ann` is removed with `remove_player`,
`has_next_turn` still points to it, and the invariant no longer holds. -/
theorem broadcast_drops_turn_holder :
    turn_ok cat_server.game ∧
    ∃ s1, broadcast first_fails cat_server message.no_guesses = some s1 ∧
      s1.game.head = [bob, cyd] ∧ s1.game.has_next_turn = some ann.fd ∧
      ¬ turn_ok s1.game := by
  refine ⟨by decide, _, rfl, rfl, rfl, by decide⟩

/-- C7: the turn holder `p` has `in_ptr` bytes buffered, `read` returns `data`,
neither holds a NUL byte, and a line is detected.  Then either the
accumulated buffer is exactly one letter a-z followed by CR LF and the input
is handled as the guess of that letter, or it is anything else and the
input is answered with the format-rejection message and nothing more. -/
theorem guess_format (c : config) (e : env) (s : server) (p : client) (data : List Char)
    (hturn : s.game.has_next_turn = some p.fd)
    (hptr : p.in_ptr ≤ p.inbuf.length)
    (hread : data.length ≤ c.MAX_BUF - p.in_ptr)
    (hold : ∀ b ∈ p.inbuf.take p.in_ptr, b ≠ Char.ofNat 0)
    (hnew : ∀ b ∈ data, b ≠ Char.ofNat 0)
    (hline : ∃ p1 k, read_input c p data = some (read_result.line p1 k)) :
    (∃ ch, 97 ≤ ch.toNat ∧ ch.toNat ≤ 122 ∧
        p.inbuf.take p.in_ptr ++ data = [ch, Char.ofNat 13, Char.ofNat 10] ∧
        active_input c e s p data = handle_guess c e (line_taken s p data) p.fd ch) ∨
    ((¬ ∃ ch, 97 ≤ ch.toNat ∧ ch.toNat ≤ 122 ∧
        p.inbuf.take p.in_ptr ++ data = [ch, Char.ofNat 13, Char.ofNat 10]) ∧
      active_input c e s p data =
        write_or_remove e (line_taken s p data) p.fd message.invalid_guess) := by
  obtain ⟨p1, k, hr⟩ := hline
  obtain ⟨hne, hp1, j, hj, -⟩ := read_input_line hread hr
  have hc0 := cstr_store_zero p.inbuf data p.in_ptr hold hnew
  have hc1 := cstr_store_cursor p.inbuf data p.in_ptr hptr hnew
  have hhd := store_headD p.inbuf (data ++ [Char.ofNat 0]) p.in_ptr (by simp)
  rw [hc1] at hj
  obtain ⟨pre, post, hdata, -⟩ := strstr_crlf_some hj
  have hturn2 : ¬ (s.game.has_next_turn ≠ some p.fd) := fun h => h hturn
  have hact : active_input c e s p data =
      if is_valid p1.inbuf then
        handle_guess c e (line_taken s p data) p.fd (p1.inbuf.headD (Char.ofNat 0))
      else write_or_remove e (line_taken s p data) p.fd message.invalid_guess := by
    simp only [active_input, hr, hturn2, if_false, line_taken, hp1]
  have hvalid : is_valid p1.inbuf = true ↔
      (p.inbuf.take p.in_ptr ++ data).length = 3 ∧
        97 ≤ ((p.inbuf.take p.in_ptr ++ data).headD (Char.ofNat 0)).toNat ∧
        ((p.inbuf.take p.in_ptr ++ data).headD (Char.ofNat 0)).toNat ≤ 122 := by
    have hh : (List.take p.in_ptr p.inbuf ++ (data ++ [Char.ofNat 0])).headD (Char.ofNat 0) =
        (List.take p.in_ptr p.inbuf ++ data).headD (Char.ofNat 0) := by
      cases hx : List.take p.in_ptr p.inbuf with
      | nil =>
        cases hy : data with
        | nil => exact absurd hy hne
        | cons a t => simp
      | cons a t => simp
    simp only [is_valid, hp1, hc0, hhd, hh, decide_eq_true_eq]
  by_cases hv : is_valid p1.inbuf = true
  · left
    obtain ⟨h3, hlo, hhi⟩ := hvalid.1 hv
    refine ⟨(p.inbuf.take p.in_ptr ++ data).headD (Char.ofNat 0), hlo, hhi, ?_, ?_⟩
    · rw [hdata] at h3 hlo ⊢
      cases hx : List.take p.in_ptr p.inbuf with
      | nil =>
        rw [hx] at h3 hlo
        cases pre with
        | nil => simp at hlo
        | cons a t =>
          cases t with
          | nil =>
            cases post with
            | nil => simp
            | cons _ _ => simp at h3
          | cons _ _ => simp at h3; omega
      | cons a t =>
        rw [hx] at h3 hlo
        cases t with
        | nil =>
          cases pre with
          | nil =>
            cases post with
            | nil => simp
            | cons _ _ => simp at h3
          | cons _ _ => simp at h3; omega
        | cons _ _ => simp at h3; omega
    · rw [hact, if_pos hv]
      congr 1
      rw [hp1]
      simp only [hhd]
      cases hx : List.take p.in_ptr p.inbuf with
      | nil =>
        cases hy : data with
        | nil => exact absurd hy hne
        | cons a t => simp
      | cons a t => simp
  · right
    refine ⟨?_, by rw [hact, if_neg hv]⟩
    rintro ⟨ch, hlo, hhi, hacc⟩
    apply hv
    rw [hvalid, hacc]
    exact ⟨rfl, hlo, hhi⟩

theorem guess_format_witness :
    cat_server.game.has_next_turn = some ann.fd ∧
    ann.in_ptr ≤ ann.inbuf.length ∧
    line_a.length ≤ small_config.MAX_BUF - ann.in_ptr ∧
    (∀ b ∈ ann.inbuf.take ann.in_ptr, b ≠ Char.ofNat 0) ∧
    (∀ b ∈ line_a, b ≠ Char.ofNat 0) ∧
    (∃ p1 k, read_input small_config ann line_a = some (read_result.line p1 k)) ∧
    ((∃ ch, 97 ≤ ch.toNat ∧ ch.toNat ≤ 122 ∧
        ann.inbuf.take ann.in_ptr ++ line_a = [ch, Char.ofNat 13, Char.ofNat 10] ∧
        active_input small_config all_ok cat_server ann line_a =
          handle_guess small_config all_ok (line_taken cat_server ann line_a) ann.fd ch) ∨
    ((¬ ∃ ch, 97 ≤ ch.toNat ∧ ch.toNat ≤ 122 ∧
        ann.inbuf.take ann.in_ptr ++ line_a = [ch, Char.ofNat 13, Char.ofNat 10]) ∧
      active_input small_config all_ok cat_server ann line_a =
        write_or_remove all_ok (line_taken cat_server ann line_a) ann.fd
          message.invalid_guess)) :=
  ⟨rfl, by decide, by decide, by decide, by decide, ⟨_, _, rfl⟩,
    guess_format small_config all_ok cat_server ann line_a rfl (by decide) (by decide)
      (by decide) (by decide) ⟨_, _, rfl⟩⟩

/-- C8 (as stated, refuted): `cyd` holds the turn and `bob` sends a line.  The reply
"It is not your turn to guess" is written to `bob` with success, the write of
the turn announcement to `ann` that follows (line 305) fails, and `ann` is
removed from the active players. -/
theorem rejection_then_failed_announce :
    cat_server_cyd.game.has_next_turn ≠ some bob.fd ∧ second_fails.ok 0 = true ∧
    fds cat_server_cyd.game.head = [4, 5, 6] ∧
    ∃ s1, handle_input small_config second_fails cat_server_cyd bob.fd line_a = some s1 ∧
      s1.out.head? = some (event.write bob.fd message.not_your_turn) ∧
      fds s1.game.head = [5, 6] := by
  refine ⟨by decide, rfl, rfl, _, rfl, rfl, rfl⟩

/-- C8 (amended): if every write made while the line is handled succeeds (the reply
and, for an active player, the turn announcement and the prompt that
follow), a rejected line leaves the round (word, masked progress, guessed
letters, guesses left), the turn reference and the membership of the
active players and of the new players as they were; in particular the
sender is still a member. -/
theorem rejection_changes_nothing (c : config) (e : env) (s : server) (cur_fd : Int)
    (data : List Char) (hok : ∀ n, e.ok n = true) (hlive : turn_live s.game)
    (hrej : rejected c s cur_fd data) :
    ∃ s1, handle_input c e s cur_fd data = some s1 ∧ unchanged s s1 := by
  rcases hrej with ⟨p, p1, k, hp, hr, hcase⟩ | ⟨p, p1, k, hnp, hp, hr, hcase⟩
  · have hfd : p.fd = cur_fd := deref_fd hp
    have hin : cur_fd ∈ fds s.game.head := (deref_isSome_iff _ _).1 (by simp [hp])
    have key : ∀ m, active_input c e s p data = write_or_remove e
        { s with game := { s.game with head := set_client s.game.head { p1 with in_ptr := 0 } } }
        cur_fd m → ∃ s1, handle_input c e s cur_fd data = some s1 ∧ unchanged s s1 := by
      intro m ha
      have hinL : (deref (set_client s.game.head { p1 with in_ptr := 0 }) cur_fd).isSome := by
        rw [deref_isSome_iff, fds_set_client]; exact hin
      rw [write_or_remove_ok hok _ hinL] at ha
      have hliveL : turn_live (write e
          { s with game := { s.game with head := set_client s.game.head { p1 with in_ptr := 0 } } }
          cur_fd m).2.game := by
        rw [turn_live_iff]
        simp only [write, fds_set_client]
        exact (turn_live_iff _).1 hlive
      obtain ⟨s2, h2, h3⟩ := after_active_ok hok cur_fd hliveL
      refine ⟨s2, by simp only [handle_input, hp, ha, Option.some_bind, h2], ?_⟩
      refine ⟨?_, ?_, ?_, ?_⟩
      · rw [h3.1]; exact same_round_refl _
      · rw [h3.1]; rfl
      · rw [h3.1]; exact fds_set_client _ _
      · rw [h3.2]; rfl
    by_cases hturn : s.game.has_next_turn = some cur_fd
    · have hv : is_valid p1.inbuf = false := by
        rcases hcase with h | h
        · exact absurd hturn h
        · exact h
      apply key message.invalid_guess
      simp only [active_input, hr, hfd, hturn, ne_eq, not_true_eq_false, if_false, hv,
        Bool.false_eq_true]
    · apply key message.not_your_turn
      simp only [active_input, hr, hfd, ne_eq, hturn, not_false_eq_true, if_true]
  · have hfd : p.fd = cur_fd := deref_fd hp
    have hfd2 : (store_name c p1 k).fd = cur_fd := by
      rw [store_name_fd, read_input_fd hr, hfd]
    have key : ∀ m, lobby_input c e s p data = some (reject_name e s (store_name c p1 k) m) →
        ∃ s1, handle_input c e s cur_fd data = some s1 ∧ unchanged s s1 := by
      intro m ha
      refine ⟨reject_name e s (store_name c p1 k) m,
        by simp only [handle_input, hnp, hp, ha], ?_⟩
      have hw : (write e s (store_name c p1 k).fd m).1 = true := by simp [write, hok]
      simp only [reject_name, hw, if_true]
      exact ⟨same_round_refl _, rfl, rfl, fds_set_client _ _⟩
    by_cases hempty : (store_name c p1 k).name = []
    · apply key message.empty_name
      simp only [lobby_input, hr, hempty, if_true]
    · have hdup : check_name s.game (store_name c p1 k).name = true := by
        rcases hcase with h | h
        · exact absurd h hempty
        · exact h
      apply key (message.name_exists (store_name c p1 k).name)
      simp only [lobby_input, hr, hempty, if_false, hdup, if_true]

theorem rejection_changes_nothing_witness :
    (∀ n, all_ok.ok n = true) ∧ turn_live cat_server_cyd.game ∧
    rejected small_config cat_server_cyd bob.fd line_a ∧
    ∃ s1, handle_input small_config all_ok cat_server_cyd bob.fd line_a = some s1 ∧
      unchanged cat_server_cyd s1 :=
  ⟨fun _ => rfl, by decide,
    Or.inl ⟨bob, _, _, rfl, rfl, Or.inl (by decide)⟩,
    rejection_changes_nothing small_config all_ok cat_server_cyd bob.fd line_a (fun _ => rfl)
      (by decide) (Or.inl ⟨bob, _, _, rfl, rfl, Or.inl (by decide)⟩)⟩

/-- C9: the round is "cat" with 'c' and 'a' guessed; `ann`, the first of three
active players, holds the turn and sends "t\r\n", which completes the word.
When the echo of the guess cannot be written to `ann`, line 262 frees the
node of `ann` (it is no longer in the list) and lines 267-278 read it.  When
every write to `ann` succeeds and the win announcement cannot be written
to `cyd`, the last member, line 483 reads the freed node of `cyd`.  Either
way the handling of the guess has no defined result: neither the round
reset nor the status line follows. -/
theorem win_write_failure_undefined :
    cat_server_ca.game.has_next_turn = some ann.fd ∧
    read_input small_config ann line_t = some (read_result.line ann_line_t 1) ∧
    is_valid ann_line_t.inbuf = true ∧
    apply_guess first_fails cat_server_ca ann.fd 't' = some cat_server_cat ∧
    cat_server_cat.1.game.word = cat_server_cat.1.game.guess ∧
    first_fails.ok 0 = false ∧
    (write_or_remove first_fails cat_server_cat.1 ann.fd
      (message.guess_echo ann.name 't')).map (fun s => deref s.game.head ann.fd) = some none ∧
    handle_guess small_config first_fails cat_server_ca ann.fd 't' = none ∧
    handle_input small_config first_fails cat_server_ca ann.fd line_t = none ∧
    (List.range 5).map fifth_fails.ok = [true, true, true, true, false] ∧
    handle_guess small_config fifth_fails cat_server_ca ann.fd 't' = none ∧
    handle_input small_config fifth_fails cat_server_ca ann.fd line_t = none := by
  refine ⟨rfl, rfl, by decide, rfl, by decide, rfl, rfl, rfl, rfl, by decide, rfl, rfl⟩

/-- C10: the round is "cat" with one guess left; `ann`, the first of three
active players, holds the turn and sends "x\r\n", a letter that is not in
the word: the counter is 0 after the guess and the word is not complete.
When the reply "x is not in the word" cannot be written to `ann`, line 244
frees the node of `ann` and lines 259-260 read it.  When every write to
`ann` succeeds and the loss announcement cannot be written to `cyd`, the
last member, line 466 reads the freed node of `cyd`.  Either way the
handling of the guess has no defined result: the round is not reset. -/
theorem loss_write_failure_undefined :
    cat_server_last.game.has_next_turn = some ann.fd ∧
    cat_server_last.game.guesses_left = 1 ∧
    read_input small_config ann line_x = some (read_result.line ann_line_x 1) ∧
    is_valid ann_line_x.inbuf = true ∧
    first_fails.ok 0 = false ∧
    (apply_guess first_fails cat_server_last ann.fd 'x').map
      (fun r => (r.1.game.guesses_left, decide (r.1.game.word = r.1.game.guess),
        deref r.1.game.head ann.fd)) = some (0, false, none) ∧
    handle_guess small_config first_fails cat_server_last ann.fd 'x' = none ∧
    handle_input small_config first_fails cat_server_last ann.fd line_x = none ∧
    (List.range 5).map fifth_fails.ok = [true, true, true, true, false] ∧
    (apply_guess fifth_fails cat_server_last ann.fd 'x').map
      (fun r => (r.1.game.guesses_left, decide (r.1.game.word = r.1.game.guess),
        fds r.1.game.head)) = some (0, false, [4, 5, 6]) ∧
    handle_guess small_config fifth_fails cat_server_last ann.fd 'x' = none ∧
    handle_input small_config fifth_fails cat_server_last ann.fd line_x = none := by
  refine ⟨rfl, rfl, rfl, by decide, rfl, rfl, rfl, rfl, by decide, rfl, rfl, rfl⟩

/-- C11: the session `ann` has an empty buffer.  A first read returns "a" and CR,
a second read returns LF.  After the second read the accumulated buffer is
"a\r\n", yet no line is detected: `strstr` starts at `in_ptr`, past the CR,
and the cursor moves on.  The same three bytes in one read are detected as
a line. -/
theorem split_terminator_missed :
    read_input small_config ann ['a', Char.ofNat 13] = some (read_result.pending ann_cr) ∧
    read_input small_config ann_cr [Char.ofNat 10] = some (read_result.pending ann_cr_lf) ∧
    ann_cr_lf.inbuf.take ann_cr_lf.in_ptr = line_a ∧
    strstr_crlf line_a = some 1 ∧
    read_input small_config ann line_a = some (read_result.line ann_line 1) := by
  refine ⟨rfl, rfl, by decide, by decide, rfl⟩



/-- C12: a round starts with the masked progress all `ph`, as long as the word,
and no letter guessed.  After any sequence of events of the dispatcher that
does not end the round (valid guesses of the turn holder, each with the line
stored before it and the announcement and prompt after it, and between them
any other input or connection, whatever the outcome of the writes), the word
is the same, the masked progress is as long as the word, and at every
position it holds the letter of the word if that letter is in the
guessed-letter set and `ph` otherwise. -/
theorem masked_progress (c : config) (ph : Char) (s0 s : server)
    (hstart : s0.game.guess = List.replicate s0.game.word.length ph)
    (hnone : s0.game.letters_guessed = List.replicate 26 0)
    (hrun : round_runs c s0 s) :
    s.game.word = s0.game.word ∧ s.game.guess.length = s.game.word.length ∧
      ∀ (i : Nat) (w : Char), s.game.word[i]? = some w →
        s.game.guess[i]? = some (if guessed s.game w = true then w else ph) := by
  have key : s.game.word = s0.game.word ∧ masked_ok ph s.game := by
    induction hrun with
    | start => exact ⟨rfl, masked_ok_start hstart hnone⟩
    | next _ handled no_reset ih =>
      obtain ⟨a, b⟩ := step_masked handled no_reset ih.2
      exact ⟨by rw [a, ih.1], b⟩
  exact ⟨key.1, key.2.1, key.2.2.2⟩

theorem masked_progress_witness :
    cat_server.game.guess = List.replicate cat_server.game.word.length '_' ∧
    cat_server.game.letters_guessed = List.replicate 26 0 ∧
    handle_input small_config all_ok cat_server 4 line_a = some cat_server_a ∧
    handle_input small_config all_ok cat_server_a 4 line_x = some cat_server_ax ∧
    round_runs small_config cat_server cat_server_ax ∧
    cat_server_ax.game.word = cat_server.game.word ∧
    cat_server_ax.game.guess.length = cat_server_ax.game.word.length ∧
    ∀ (i : Nat) (w : Char), cat_server_ax.game.word[i]? = some w →
      cat_server_ax.game.guess[i]? =
        some (if guessed cat_server_ax.game w = true then w else '_') :=
  ⟨rfl, rfl, rfl, rfl,
    round_runs.next
      (round_runs.next (round_runs.start cat_server) (step.input all_ok 4 line_a rfl) rfl)
      (step.input all_ok 4 line_x rfl) rfl,
    masked_progress small_config '_' cat_server cat_server_ax rfl rfl
      (round_runs.next
        (round_runs.next (round_runs.start cat_server) (step.input all_ok 4 line_a rfl) rfl)
        (step.input all_ok 4 line_x rfl) rfl)⟩

/-- C13: the session `ann` has an empty buffer of `MAX_BUF` = 8 bytes and a read
returns 8 bytes, as many as were requested.  The terminating NUL is stored
at index 8, one past the last byte of the buffer. -/
theorem nul_stored_past_buffer :
    ann.inbuf.length = small_config.MAX_BUF ∧
    (List.replicate 8 'x').length = small_config.MAX_BUF - ann.in_ptr ∧
    nul_index small_config ann (List.replicate 8 'x') = small_config.MAX_BUF ∧
    read_input small_config ann (List.replicate 8 'x') = none := by
  refine ⟨by decide, by decide, by decide, rfl⟩

/-- C14: on a list of `n >= 1` active players with distinct descriptors,
`advance_turn` gives the turn to the first player when nobody holds it, and
to the player at position `(i + 1) mod n` when the player at position `i`
holds it; nothing else in the game changes, the list of players included. -/
theorem advance_turn_position (g : game_state) (hne : g.head ≠ [])
    (hnd : (fds g.head).Nodup) :
    (g.has_next_turn = none →
      ∃ h, g.head.head? = some h ∧
        advance_turn g = some { g with has_next_turn := some h.fd }) ∧
    (∀ i t, (fds g.head)[i]? = some t → g.has_next_turn = some t →
      ∃ u, (fds g.head)[(i + 1) % (fds g.head).length]? = some u ∧
        advance_turn g = some { g with has_next_turn := some u }) := by
  refine ⟨fun hnone => ?_, fun i t hi ht => ?_⟩
  · cases hh : g.head with
    | nil => exact absurd hh hne
    | cons h r => exact ⟨h, rfl, by simp only [advance_turn, hh, hnone]⟩
  · have hpos : 0 < (fds g.head).length := List.length_pos_of_mem (List.getElem?_mem hi)
    have hlt : (i + 1) % (fds g.head).length < (fds g.head).length := Nat.mod_lt _ hpos
    refine ⟨(fds g.head)[(i + 1) % (fds g.head).length], List.getElem?_eq_getElem hlt, ?_⟩
    rw [advance_turn_at hnd hi ht, List.getElem?_eq_getElem hlt]

theorem advance_turn_position_witness :
    cat_game.head ≠ [] ∧ (fds cat_game.head).Nodup ∧
    (cat_game.has_next_turn = none →
      ∃ h, cat_game.head.head? = some h ∧
        advance_turn cat_game = some { cat_game with has_next_turn := some h.fd }) ∧
    (∀ i t, (fds cat_game.head)[i]? = some t → cat_game.has_next_turn = some t →
      ∃ u, (fds cat_game.head)[(i + 1) % (fds cat_game.head).length]? = some u ∧
        advance_turn cat_game = some { cat_game with has_next_turn := some u }) :=
  ⟨by decide, by decide, advance_turn_position cat_game (by decide) (by decide)⟩

/-- C15 (as stated, refuted): with no active player and a turn reference that is
not `NULL`, `advance_turn` returns at line 500 and the turn reference is what
it was. -/
theorem advance_turn_keeps_stale_turn :
    stale_turn_game.head = [] ∧
    ∃ g1, advance_turn stale_turn_game = some g1 ∧ g1.has_next_turn = some 4 := by
  refine ⟨rfl, _, rfl, rfl⟩

/-- C15 (amended): with no active player `advance_turn` returns with the game
as it was: the turn reference afterwards is what it held before, `none` if
it was `none`. -/
theorem advance_turn_empty (g : game_state) (h : g.head = []) : advance_turn g = some g := by
  simp only [advance_turn, h]

theorem advance_turn_empty_witness :
    stale_turn_game.head = [] ∧ advance_turn stale_turn_game = some stale_turn_game :=
  ⟨rfl, advance_turn_empty stale_turn_game rfl⟩

/-- C16: `broadcast` to three active players, the writes to the first two
succeeding and the write to the last one failing.  With `q = p->next` equal
to `NULL`, line 466 takes `p->next` from the node that `remove_player` has
just freed: the call has no defined result. -/
theorem broadcast_last_member_fails :
    fds cat_server.game.head = [4, 5, 6] ∧
    third_fails.ok 0 = true ∧ third_fails.ok 1 = true ∧ third_fails.ok 2 = false ∧
    broadcast third_fails cat_server message.no_guesses = none := by
  refine ⟨rfl, rfl, rfl, rfl, rfl⟩

/-- C17 (as stated, refuted): the new player `dan`, with an empty buffer of 8
bytes, receives in one read the three bytes 'b', NUL, 'b' followed by CR LF.
The search of line 338 stops at the NUL and finds no terminator: the bytes
stay in the buffer as an incomplete line and no name is stored, where the
claim has the three bytes stored as the name.  And a line of six
characters received with its terminator fills the buffer, so that the NUL
of line 337 has no place in it: no name is stored either. -/
theorem name_line_with_nul :
    dan.in_ptr = 0 ∧ line_nul.length ≤ small_config.MAX_NAME - 1 ∧
    read_input small_config dan (line_nul ++ [Char.ofNat 13, Char.ofNat 10]) =
      some (read_result.pending dan_nul) ∧
    handle_input small_config all_ok lobby_server dan.fd
        (line_nul ++ [Char.ofNat 13, Char.ofNat 10]) =
      some { lobby_server with new_players := [dan_nul] } ∧
    dan_nul.name = [] ∧
    line_six.length + 2 = small_config.MAX_BUF ∧
    read_input small_config dan (line_six ++ [Char.ofNat 13, Char.ofNat 10]) = none ∧
    handle_input small_config all_ok lobby_server dan.fd
        (line_six ++ [Char.ofNat 13, Char.ofNat 10]) = none := by
  refine ⟨rfl, by decide, rfl, rfl, rfl, rfl, rfl, rfl⟩

/-- C17 (amended): a new player with an empty buffer receives, in one read, a line (no NUL
byte, no CR LF inside) followed by CR LF, the whole fitting in the buffer
with its NUL.  The name stored by lines 347-355 is the line when it has at
most `MAX_NAME - 1` characters and its first `MAX_NAME - 1` characters
otherwise; with its terminating NUL it takes at most `MAX_NAME` bytes. -/
theorem stored_name (c : config) (p : client) (line : List Char)
    (hname : 0 < c.MAX_NAME) (hptr : p.in_ptr = 0) (hfit : line.length + 2 < c.MAX_BUF)
    (hnul : ∀ b ∈ line, b ≠ Char.ofNat 0) (hcrlf : strstr_crlf line = none) :
    ∃ p1, read_input c p (line ++ [Char.ofNat 13, Char.ofNat 10]) =
        some (read_result.line p1 line.length) ∧
      (store_name c p1 line.length).name =
        (if line.length ≤ c.MAX_NAME - 1 then line else line.take (c.MAX_NAME - 1)) ∧
      (store_name c p1 line.length).name.length + 1 ≤ c.MAX_NAME := by
  refine ⟨_, read_input_single hptr hfit hnul hcrlf, ?_⟩
  have hdnul : ∀ b ∈ line ++ [Char.ofNat 13, Char.ofNat 10], b ≠ Char.ofNat 0 := by
    intro b hb
    rcases List.mem_append.1 hb with h | h
    · exact hnul b h
    · simp at h
      rcases h with h | h <;> rw [h] <;> decide
  by_cases hshort : line.length ≤ c.MAX_NAME - 1
  · have hcopy : line.length + 1 ≤ c.MAX_NAME := by omega
    have hname_eq : cstr ((line ++ Char.ofNat 13 :: Char.ofNat 10 :: Char.ofNat 0 ::
        p.inbuf.drop (line.length + 3)).set line.length (Char.ofNat 0)) 0 = line := by
      rw [set_append_length]
      unfold cstr
      rw [List.drop_zero]
      exact takeWhile_nul _ _ hnul
    unfold store_name
    rw [if_pos hcopy, if_pos hshort]
    exact ⟨hname_eq, by rw [hname_eq]; exact hcopy⟩
  · have hcopy : ¬ (line.length + 1 ≤ c.MAX_NAME) := by omega
    have hname_eq : cstr (line ++ Char.ofNat 13 :: Char.ofNat 10 :: Char.ofNat 0 ::
        p.inbuf.drop (line.length + 3)) 0 = line ++ [Char.ofNat 13, Char.ofNat 10] := by
      unfold cstr
      rw [List.drop_zero]
      have : line ++ Char.ofNat 13 :: Char.ofNat 10 :: Char.ofNat 0 ::
          p.inbuf.drop (line.length + 3) =
          (line ++ [Char.ofNat 13, Char.ofNat 10]) ++ Char.ofNat 0 ::
            p.inbuf.drop (line.length + 3) := by simp
      rw [this]
      exact takeWhile_nul _ _ hdnul
    have htake : (line ++ [Char.ofNat 13, Char.ofNat 10]).take (c.MAX_NAME - 1) =
        line.take (c.MAX_NAME - 1) :=
      List.take_append_of_le_length (by omega)
    unfold store_name
    rw [if_neg hcopy, if_neg hshort]
    simp only [hname_eq, htake]
    refine ⟨trivial, ?_⟩
    rw [List.length_take]
    omega

theorem stored_name_witness :
    0 < small_config.MAX_NAME ∧ dan.in_ptr = 0 ∧
    ['b', 'o', 'b'].length + 2 < small_config.MAX_BUF ∧
    (∀ b ∈ ['b', 'o', 'b'], b ≠ Char.ofNat 0) ∧ strstr_crlf ['b', 'o', 'b'] = none ∧
    ∃ p1, read_input small_config dan (['b', 'o', 'b'] ++ [Char.ofNat 13, Char.ofNat 10]) =
        some (read_result.line p1 ['b', 'o', 'b'].length) ∧
      (store_name small_config p1 ['b', 'o', 'b'].length).name =
        (if ['b', 'o', 'b'].length ≤ small_config.MAX_NAME - 1 then ['b', 'o', 'b']
          else ['b', 'o', 'b'].take (small_config.MAX_NAME - 1)) ∧
      (store_name small_config p1 ['b', 'o', 'b'].length).name.length + 1 ≤
        small_config.MAX_NAME :=
  ⟨by decide, rfl, by decide, by decide, by decide,
    stored_name small_config dan ['b', 'o', 'b'] (by decide) rfl (by decide) (by decide)
      (by decide)⟩

/-- C18: a connection is accepted on descriptor 7 while `ann`, `bob` and `cyd`
play and the loop variable `p` of `main` still points to `bob`; the welcome
write fails.  The call `remove_player(&(game.head), p->fd)` of line 164
removes `bob` from the active players, and the new session stays with the
new players. -/
theorem accept_failure_removes_other :
    fds cat_server.game.head = [4, 5, 6] ∧ fds cat_server.new_players = [] ∧
    first_fails.ok cat_server.out.length = false ∧
    ∃ s1, accept_client first_fails cat_server 7 (List.replicate 7 (Char.ofNat 0))
        (some bob.fd) = some s1 ∧
      fds s1.new_players = [7] ∧ fds s1.game.head = [4, 6] := by
  refine ⟨rfl, rfl, rfl, _, rfl, rfl, rfl⟩

/-- C19: `ann`, `bob` and `cyd` play, `ann` holds the turn and `dan` waits to
enter a name.  A connection is accepted with a failing welcome write while
the loop variable of `main` points to `ann`: line 164 removes `ann` from the
active players and `has_next_turn` is left pointing to the freed node.
Then `dan` submits "dan", a name nobody has, and every write succeeds: the
promotion reads `has_next_turn->fd` on line 425 and has no defined result. -/
theorem promotion_reads_stale_turn :
    accept_client first_fails lobby_server 8 (List.replicate 7 (Char.ofNat 0))
      (some ann.fd) = some stale_lobby_server ∧
    stale_lobby_server.game.has_next_turn = some ann.fd ∧
    fds stale_lobby_server.game.head = [bob.fd, cyd.fd] ∧
    fds stale_lobby_server.new_players = [8, dan.fd] ∧
    (∀ n, all_ok.ok n = true) ∧
    read_input small_config dan line_dan = some (read_result.line dan_named 3) ∧
    (store_name small_config dan_named 3).name = ['d', 'a', 'n'] ∧
    check_name stale_lobby_server.game ['d', 'a', 'n'] = false ∧
    handle_input small_config all_ok stale_lobby_server dan.fd line_dan = none := by
  refine ⟨rfl, rfl, rfl, rfl, fun _ => rfl, rfl, by decide, rfl, rfl⟩

/-- C20: on a list of `n` active players with distinct descriptors, one of them
holding the turn, `n` successive calls of `advance_turn` are defined, the
turn references they give are the players, each once (a permutation of the
list), and the game after the last call is the game before the first: the
turn is back where it was and the list has not changed. -/
theorem turn_rotation (g : game_state) (t : Int) (hnd : (fds g.head).Nodup)
    (ht : g.has_next_turn = some t) (hin : t ∈ fds g.head) :
    ∃ l, advance_turns (fds g.head).length g = some (l, g) ∧
      l.Perm ((fds g.head).map some) := by
  have hpos : 0 < (fds g.head).length := List.length_pos_of_mem hin
  have hidx : (fds g.head).indexOf t < (fds g.head).length := List.indexOf_lt_length.2 hin
  have hget : (fds g.head)[(fds g.head).indexOf t]? = some t := by
    rw [List.getElem?_eq_getElem hidx]
    simp
  have hstart : g.has_next_turn =
      (fds g.head)[(fds g.head).indexOf t % (fds g.head).length]? := by
    rw [Nat.mod_eq_of_lt hidx, hget, ht]
  have hrun := advance_turns_from (k := (fds g.head).length) hnd hpos hstart
  have hback : ({ g with
      has_next_turn :=
        (fds g.head)[((fds g.head).indexOf t + (fds g.head).length) % (fds g.head).length]? } :
      game_state) = g := by
    rw [Nat.add_mod_right, ← hstart]
  rw [hback] at hrun
  refine ⟨_, hrun, ?_⟩
  have hrot : (List.range (fds g.head).length).map
      (fun m => (fds g.head)[((fds g.head).indexOf t + 1 + m) % (fds g.head).length]?) =
      ((fds g.head).rotate ((fds g.head).indexOf t + 1)).map some := by
    apply List.ext_getElem?
    intro m
    by_cases hm : m < (fds g.head).length
    · rw [List.getElem?_map, List.getElem?_map, List.getElem?_rotate hm]
      rw [List.getElem?_range hm]
      simp only [Option.map_some']
      have hlt : (m + ((fds g.head).indexOf t + 1)) % (fds g.head).length <
          (fds g.head).length := Nat.mod_lt _ hpos
      rw [List.getElem?_eq_getElem hlt]
      simp only [Option.map_some']
      congr 2
      have : (fds g.head).indexOf t + 1 + m = m + ((fds g.head).indexOf t + 1) := by omega
      simp only [this]
      exact List.getElem?_eq_getElem hlt
    · rw [List.getElem?_eq_none (by simp; omega), List.getElem?_eq_none (by simp; omega)]
  rw [hrot]
  exact (List.rotate_perm _ _).map some

theorem turn_rotation_witness :
    (fds cat_game.head).Nodup ∧ cat_game.has_next_turn = some 4 ∧
    (4 : Int) ∈ fds cat_game.head ∧
    ∃ l, advance_turns (fds cat_game.head).length cat_game = some (l, cat_game) ∧
      l.Perm ((fds cat_game.head).map some) :=
  ⟨by decide, rfl, by decide, turn_rotation cat_game 4 (by decide) rfl (by decide)⟩

end Wordsrv
